import Mathlib

/-!
Shallow embedding of the streaming charset-decoding core:
`src/base/encoding.rs` (`SharedEncoding`) and
`src/rewritable_units/text_decoder.rs` (`TextDecoder`).

Bytes are modelled as `List Nat` (each element a byte value); decoded text is
modelled at the byte level as its UTF-8 bytes, which matches the source where
`&str` is a byte slice carrying a validity invariant.  The external charset
codec (`encoding_rs`) is out of scope of the repository and is modelled
through the streaming-decode interface the spec describes, plus one concrete
UTF-8 instance.
-/

namespace LolHtml

/-- Error raised by the sink (`RewritingError` in the source), kept abstract. -/
structure Err where
  code : Nat
deriving DecidableEq, Repr

/-- Byte strings. -/
abbrev Bytes := List Nat

/-- An encoding identifier from the fixed registry (`encoding_rs::Encoding`). -/
structure Encoding where
  name : String
  asciiCompatible : Bool
deriving DecidableEq, Repr

/-- The UTF-8 registry member. -/
def UTF_8 : Encoding := ⟨"UTF-8", true⟩

/-- A second ASCII-compatible registry member, for concrete runs. -/
def WINDOWS_1252 : Encoding := ⟨"windows-1252", true⟩

/-- `AsciiCompatibleEncoding`: an encoding whose ASCII-compatibility is
enforced at construction by the type (`crate::rewriter::AsciiCompatibleEncoding`). -/
def AsciiCompatibleEncoding := { e : Encoding // e.asciiCompatible = true }

/-- The UTF-8 member of `AsciiCompatibleEncoding`. -/
def AsciiCompatibleEncoding.utf_8 : AsciiCompatibleEncoding := ⟨UTF_8, rfl⟩

/-- The windows-1252 member of `AsciiCompatibleEncoding`. -/
def AsciiCompatibleEncoding.windows_1252 : AsciiCompatibleEncoding := ⟨WINDOWS_1252, rfl⟩

/-!
`SharedEncoding` (src/base/encoding.rs): a cloneable handle around a single
mutable slot holding a registry reference.  The sequential semantics of the
slot is its current contents; cloned handles denote the same slot, so they are
the same value in this model.  The lock-free `AtomicPtr` mechanics
(`Ordering::Relaxed` loads and stores of a non-null `&'static Encoding`) have
no sequential content beyond this.
-/

/-- Sequential model of the `SharedEncoding` slot contents. -/
def SharedEncoding := Encoding

/-- `SharedEncoding::new`: seed the slot with the initial encoding. -/
def SharedEncoding.new (encoding : AsciiCompatibleEncoding) : SharedEncoding :=
  encoding.val

/-- `SharedEncoding::get`: read the slot. -/
def SharedEncoding.get (s : SharedEncoding) : Encoding := s

/-- `SharedEncoding::set`: replace the slot contents. -/
def SharedEncoding.set (_ : SharedEncoding) (encoding : AsciiCompatibleEncoding) :
    SharedEncoding :=
  encoding.val

/-! UTF-8 byte-level classification, matching `std::str::from_utf8` /
WHATWG UTF-8: lead-byte classes C2..DF, E0..EF (E0 and ED restrict the second
byte), F0..F4 (F0 and F4 restrict the second byte), continuations 80..BF. -/

/-- Is `b` a UTF-8 continuation byte? -/
def isCont (b : Nat) : Bool := decide (0x80 ≤ b ∧ b ≤ 0xBF)

/-- Lower bound for the second byte of a multi-byte sequence led by `lead`. -/
def cont2lo (lead : Nat) : Nat :=
  if lead = 0xE0 then 0xA0 else if lead = 0xF0 then 0x90 else 0x80

/-- Upper bound for the second byte of a multi-byte sequence led by `lead`. -/
def cont2hi (lead : Nat) : Nat :=
  if lead = 0xED then 0x9F else if lead = 0xF4 then 0x8F else 0xBF

/-- Is `c` an admissible second byte after lead byte `lead`? -/
def isCont2 (lead c : Nat) : Bool := decide (cont2lo lead ≤ c ∧ c ≤ cont2hi lead)

/-- Byte-at-a-time scan of a UTF-8 front (the WHATWG UTF-8 acceptance
automaton): `committed` counts the bytes of the complete sequences seen so
far, `pend` the bytes of the sequence in progress, `need` how many
continuation bytes that sequence still requires, and `lo`/`hi` bound its next
byte.  The scan stops at the first byte that cannot begin or continue a valid
sequence; a truncated final sequence is not counted. -/
def u8scanGo : Bytes → Nat → Nat → Nat → Nat → Nat → Nat
  | [], committed, _, _, _, _ => committed
  | b :: t, committed, pend, need, lo, hi =>
    if 0 < need then
      if lo ≤ b ∧ b ≤ hi then
        if need = 1 then u8scanGo t (committed + pend + 1) 0 0 0 0
        else u8scanGo t committed (pend + 1) (need - 1) 0x80 0xBF
      else committed
    else if b ≤ 0x7F then u8scanGo t (committed + 1) 0 0 0 0
    else if 0xC2 ≤ b ∧ b ≤ 0xDF then u8scanGo t committed 1 1 0x80 0xBF
    else if 0xE0 ≤ b ∧ b ≤ 0xEF then u8scanGo t committed 1 2 (cont2lo b) (cont2hi b)
    else if 0xF0 ≤ b ∧ b ≤ 0xF4 then u8scanGo t committed 1 3 (cont2lo b) (cont2hi b)
    else committed

/-- Length in bytes of the longest valid UTF-8 front of the input: the model
of `std::str::from_utf8(..).map_err(|e| e.valid_up_to())`. -/
def utf8ValidUpTo (s : Bytes) : Nat := u8scanGo s 0 0 0 0 0

/-- The whole byte string is valid UTF-8. -/
def validUtf8 (s : Bytes) : Prop := utf8ValidUpTo s = s.length

instance (s : Bytes) : Decidable (validUtf8 s) := by
  unfold validUtf8; infer_instance

/-- Length of the longest all-ASCII front of the input: the model of
`encoding_rs::Encoding::ascii_valid_up_to`. -/
def asciiValidUpTo : Bytes → Nat
  | [] => 0
  | b :: t => if b ≤ 0x7F then 1 + asciiValidUpTo t else 0

/-- The length of the longest front of `raw` that the fast path of
`split_utf8_start` accepts under encoding `enc`: the valid-UTF-8 front for
UTF-8 and the ASCII front otherwise. -/
def validUpTo (enc : Encoding) (raw : Bytes) : Nat :=
  if enc = UTF_8 then utf8ValidUpTo raw else asciiValidUpTo raw

/-!
The external streaming decoder interface (spec §6): given remaining input, an
output capacity, and a "last input" flag, a decoder state steps to a new
state, a status (input exhausted / output full), the count of input bytes
consumed, and the output bytes produced.
-/

/-- Status returned by a streaming decode step (`encoding_rs::CoderResult`). -/
inductive CoderResult
  | inputEmpty
  | outputFull
deriving DecidableEq, Repr

/-- Result of one `decode_to_str` call: new decoder state, status, input bytes
consumed (`read`), and the bytes written to the output buffer (`out`, whose
length is the `written` count of the source). -/
structure DecStep (σ : Type) where
  state : σ
  status : CoderResult
  read : Nat
  out : Bytes
deriving DecidableEq, Repr

/-- The charset codec interface consumed from `encoding_rs`: per-encoding
decoder construction (`Encoding::new_decoder_without_bom_handling`) and the
streaming decode step (`Decoder::decode_to_str`). -/
structure DecoderIface (σ : Type) where
  newDecoder : Encoding → σ
  decode : σ → Bytes → Nat → Bool → DecStep σ

/-!
`TextDecoder` (src/rewritable_units/text_decoder.rs).  The struct owns the
shared encoding handle, the optional pending streaming decoder, and a
fixed-size scratch `String`; only the scratch buffer's length is observable
(the bytes it holds are returned by each decode step), so the model keeps the
length.
-/

/-- `TextDecoder` state: `pending_text_streaming_decoder` and the scratch
buffer, represented by its length. -/
structure TextDecoder (σ : Type) where
  pending_text_streaming_decoder : Option σ
  text_buffer_len : Nat
deriving DecidableEq, Repr

/-- `TextDecoder::new`: no pending decoder, 1024-byte scratch buffer
(`String::from_utf8(vec![0u8; 1024])`). -/
def TextDecoder.new (σ : Type) : TextDecoder σ := ⟨none, 1024⟩

/-- One sink invocation as observed by the consumer:
`(text, is_last, encoding_used)`. -/
structure Event where
  text : Bytes
  is_last : Bool
  enc : Encoding
deriving DecidableEq, Repr

/-- The sink (`output_handler`): a state machine over `β` that accepts
`(text, is_last, encoding)` and may fail. -/
abbrev Sink (β : Type) := β → Bytes → Bool → Encoding → Except Err β

/-- What a `feed_text` call returns in the model: the sink invocations made in
order, the call result (the sink's final state or the sink's error), the
pending decoder afterwards, and the scratch-buffer length afterwards. -/
structure FeedOut (σ β : Type) where
  events : List Event
  res : Except Err β
  pending : Option σ
  bufLen : Nat

/-- `TextDecoder::split_utf8_start`: fast path for a UTF-8 or ASCII front.
Returns the text to emit plus remaining bytes, or `none` when the fast path is
not available: a decoder is pending, or the matched front neither covers the
whole input nor reaches the scratch-buffer length. -/
def split_utf8_start {σ : Type} (st : TextDecoder σ) (raw_input : Bytes)
    (encoding : Encoding) : Option (Bytes × Bytes) :=
  if st.pending_text_streaming_decoder.isSome then none
  else
    let text_or_len : Bytes ⊕ Nat :=
      if encoding = UTF_8 then
        if utf8ValidUpTo raw_input = raw_input.length then Sum.inl raw_input
        else Sum.inr (utf8ValidUpTo raw_input)
      else Sum.inr (asciiValidUpTo raw_input)
    match text_or_len with
    | Sum.inl utf8_text => some (utf8_text, [])
    | Sum.inr valid_up_to =>
      if valid_up_to ≠ raw_input.length ∧ valid_up_to < st.text_buffer_len then
        none
      else
        some (raw_input.take valid_up_to, raw_input.drop valid_up_to)

/-- The decode loop of `feed_text` (the slow path, lines 59–86 of the source):
decode into the scratch buffer, invoke the sink whenever bytes were written or
this is the last chunk, stop on `InputEmpty` (clearing the pending decoder on
the last chunk) or on a sink error, otherwise advance past the consumed bytes
and repeat.  `fuel` bounds the number of iterations; `none` means the fuel ran
out before the loop returned. -/
def feedLoop {σ β : Type} (D : DecoderIface σ) (sink : Sink β) (encoding : Encoding)
    (bufLen : Nat) (last_in_text_node : Bool) :
    σ → Bytes → β → Nat → Option (List Event × Except Err β × Option σ)
  | _, _, _, 0 => none
  | dec, raw_input, b, fuel + 1 =>
    let s := D.decode dec raw_input bufLen last_in_text_node
    let finished_decoding : Bool := decide (s.status = CoderResult.inputEmpty)
    if 0 < s.out.length ∨ last_in_text_node then
      let really_last : Bool := last_in_text_node && finished_decoding
      match sink b s.out really_last encoding with
      | Except.error e =>
        some ([⟨s.out, really_last, encoding⟩], Except.error e, some s.state)
      | Except.ok b' =>
        if finished_decoding then
          some ([⟨s.out, really_last, encoding⟩], Except.ok b',
            if last_in_text_node then none else some s.state)
        else
          match feedLoop D sink encoding bufLen last_in_text_node s.state
              (raw_input.drop s.read) b' fuel with
          | none => none
          | some (evs, r, p) => some (⟨s.out, really_last, encoding⟩ :: evs, r, p)
    else
      if finished_decoding then
        some ([], Except.ok b, if last_in_text_node then none else some s.state)
      else
        feedLoop D sink encoding bufLen last_in_text_node s.state
          (raw_input.drop s.read) b fuel

/-- The slow path of `feed_text` on the full remaining input: obtain or lazily
create the streaming decoder for the snapshotted encoding, then run the decode
loop. -/
def feed_text_slow {σ β : Type} (D : DecoderIface σ) (sink : Sink β)
    (st : TextDecoder σ) (raw_input : Bytes) (last_in_text_node : Bool)
    (encoding : Encoding) (b : β) (fuel : Nat) : Option (FeedOut σ β) :=
  let dec := st.pending_text_streaming_decoder.getD (D.newDecoder encoding)
  match feedLoop D sink encoding st.text_buffer_len last_in_text_node dec
      raw_input b fuel with
  | none => none
  | some (evs, r, p) => some ⟨evs, r, p, st.text_buffer_len⟩

/-- `TextDecoder::feed_text`: snapshot the encoding (passed here as the
`encoding` argument, read once from the shared slot by the caller), try the
fast path, emit its text with `is_last = last_in_text_node && rest.is_empty()`
and return early when that emission was the really-last one, otherwise run the
slow path on the remaining bytes. -/
def feed_text {σ β : Type} (D : DecoderIface σ) (sink : Sink β)
    (st : TextDecoder σ) (raw_input : Bytes) (last_in_text_node : Bool)
    (encoding : Encoding) (b : β) (fuel : Nat) : Option (FeedOut σ β) :=
  match split_utf8_start st raw_input encoding with
  | some (utf8_text, rest) =>
    let really_last : Bool := last_in_text_node && decide (rest = [])
    match sink b utf8_text really_last encoding with
    | Except.error e =>
      some ⟨[⟨utf8_text, really_last, encoding⟩], Except.error e,
        st.pending_text_streaming_decoder, st.text_buffer_len⟩
    | Except.ok b' =>
      if really_last then
        some ⟨[⟨utf8_text, really_last, encoding⟩], Except.ok b',
          st.pending_text_streaming_decoder, st.text_buffer_len⟩
      else
        match feed_text_slow D sink st rest last_in_text_node encoding b' fuel with
        | none => none
        | some out =>
          some ⟨⟨utf8_text, really_last, encoding⟩ :: out.events, out.res,
            out.pending, out.bufLen⟩
  | none => feed_text_slow D sink st raw_input last_in_text_node encoding b fuel

/-- `TextDecoder::flush_pending`: feed an empty last chunk when a decoder is
pending, otherwise do nothing. -/
def flush_pending {σ β : Type} (D : DecoderIface σ) (sink : Sink β)
    (st : TextDecoder σ) (encoding : Encoding) (b : β) (fuel : Nat) :
    Option (FeedOut σ β) :=
  if st.pending_text_streaming_decoder.isSome then
    feed_text D sink st [] true encoding b fuel
  else
    some ⟨[], Except.ok b, st.pending_text_streaming_decoder, st.text_buffer_len⟩

/-!
A concrete instance of the decoder interface for UTF-8, used to run the model
on concrete inputs and to settle the claims that depend on actual decoding.
-/

/-- The UTF-8 bytes of U+FFFD, the replacement character. -/
def repl : Bytes := [0xEF, 0xBF, 0xBD]

/-- Modelled from the spec: one unit of the streaming UTF-8 decode operation
of the external charset codec (spec §6), whose source is not part of this
repository.  On a byte stream, either `some (unit, consumed)` — `unit` is the
UTF-8 bytes of one decoded scalar value, or the replacement character for one
malformed sequence (whose offending byte, when it could begin a new sequence,
is left unconsumed for reprocessing, per the WHATWG replacement policy) — or
`none` when the stream is empty or a truncated front of a valid sequence. -/
def u8unitC : Bytes → Option (Bytes × Nat)
  | [] => none
  | [b] =>
    if b ≤ 0x7F then some ([b], 1)
    else if 0xC2 ≤ b ∧ b ≤ 0xDF then none
    else if 0xE0 ≤ b ∧ b ≤ 0xEF then none
    else if 0xF0 ≤ b ∧ b ≤ 0xF4 then none
    else some (repl, 1)
  | [b, c] =>
    if b ≤ 0x7F then some ([b], 1)
    else if 0xC2 ≤ b ∧ b ≤ 0xDF then
      if isCont c then some ([b, c], 2) else some (repl, 1)
    else if 0xE0 ≤ b ∧ b ≤ 0xEF then
      if isCont2 b c then none else some (repl, 1)
    else if 0xF0 ≤ b ∧ b ≤ 0xF4 then
      if isCont2 b c then none else some (repl, 1)
    else some (repl, 1)
  | [b, c, d] =>
    if b ≤ 0x7F then some ([b], 1)
    else if 0xC2 ≤ b ∧ b ≤ 0xDF then
      if isCont c then some ([b, c], 2) else some (repl, 1)
    else if 0xE0 ≤ b ∧ b ≤ 0xEF then
      if isCont2 b c then
        if isCont d then some ([b, c, d], 3) else some (repl, 2)
      else some (repl, 1)
    else if 0xF0 ≤ b ∧ b ≤ 0xF4 then
      if isCont2 b c then
        if isCont d then none else some (repl, 2)
      else some (repl, 1)
    else some (repl, 1)
  | b :: c :: d :: e :: _ =>
    if b ≤ 0x7F then some ([b], 1)
    else if 0xC2 ≤ b ∧ b ≤ 0xDF then
      if isCont c then some ([b, c], 2) else some (repl, 1)
    else if 0xE0 ≤ b ∧ b ≤ 0xEF then
      if isCont2 b c then
        if isCont d then some ([b, c, d], 3) else some (repl, 2)
      else some (repl, 1)
    else if 0xF0 ≤ b ∧ b ≤ 0xF4 then
      if isCont2 b c then
        if isCont d then
          if isCont e then some ([b, c, d, e], 4) else some (repl, 3)
        else some (repl, 2)
      else some (repl, 1)
    else some (repl, 1)

/-- Modelled from the spec: the body of the streaming UTF-8 decode step.
Arguments: output capacity, last-input flag, iteration bound (always given as
more than the bytes available, so it never runs out), buffered bytes of the
incomplete sequence carried over from earlier calls, remaining input, input
bytes consumed so far, output bytes produced so far.  Decoded units are
appended while they fit in the remaining capacity; a unit that does not fit
stops the step with `outputFull`, leaving its bytes unconsumed.  On exhausted
input, an incomplete tail is either buffered (not last) or replaced by the
replacement character (last). -/
def u8decodeGo (cap : Nat) (last : Bool) :
    Nat → Bytes → Bytes → Nat → Bytes → DecStep Bytes
  | 0, p, i, read, out => ⟨p ++ i, CoderResult.outputFull, read + i.length, out⟩
  | fuel + 1, p, i, read, out =>
    match u8unitC (p ++ i) with
    | none =>
      if last then
        if p ++ i = [] then ⟨[], CoderResult.inputEmpty, read + i.length, out⟩
        else if out.length + 3 ≤ cap then
          ⟨[], CoderResult.inputEmpty, read + i.length, out ++ repl⟩
        else ⟨p ++ i, CoderResult.outputFull, read + i.length, out⟩
      else ⟨p ++ i, CoderResult.inputEmpty, read + i.length, out⟩
    | some (u, c) =>
      if u.length + out.length ≤ cap then
        u8decodeGo cap last fuel [] (i.drop (c - p.length))
          (read + (c - p.length)) (out ++ u)
      else ⟨p, CoderResult.outputFull, read, out⟩

/-- Modelled from the spec: the streaming UTF-8 decoder of the external
charset codec.  Its state is the buffered bytes of the incomplete sequence at
the end of the previous input. -/
def u8Decoder : DecoderIface Bytes where
  newDecoder := fun _ => []
  decode := fun p i cap last => u8decodeGo cap last (p.length + i.length + 1) p i 0 []

/-! Helper definitions used in statements and concrete runs. -/

/-- A sink that never fails and records the texts it receives. -/
def collectSink : Sink (List Bytes) := fun acc t _ _ => Except.ok (acc ++ [t])

/-- The error component of a call result. -/
def errOf {β : Type} : Except Err β → Option Err
  | Except.error e => some e
  | Except.ok _ => none

/-- Replaying a sink over a list of events, threading its state. -/
def foldSink {β : Type} (sink : Sink β) : β → List Event → Except Err β
  | b, [] => Except.ok b
  | b, ev :: evs =>
    match sink b ev.text ev.is_last ev.enc with
    | Except.error e => Except.error e
    | Except.ok b' => foldSink sink b' evs

/-- The event list of a call whose final sink invocation, and only it,
carries `is_last = true`. -/
def lastShape (evs : List Event) : Prop :=
  evs.map Event.is_last = List.replicate (evs.length - 1) false ++ [true]

theorem lastShape_singleton (ev : Event) (h : ev.is_last = true) :
    lastShape [ev] := by
  simp [lastShape, h]

theorem lastShape_cons (ev : Event) (evs : List Event) (h : ev.is_last = false)
    (hs : lastShape evs) : lastShape (ev :: evs) := by
  unfold lastShape at hs ⊢
  have hne : evs ≠ [] := by
    intro he
    rw [he] at hs
    simp at hs
  have hlen : 1 ≤ evs.length := by
    cases evs with
    | nil => exact absurd rfl hne
    | cons x xs => simp
  simp only [List.map_cons, hs, h, List.length_cons]
  rw [Nat.add_sub_cancel]
  conv_rhs => rw [← Nat.sub_add_cancel hlen, List.replicate_succ]
  rw [List.cons_append]

/-- In the decode loop of a non-last call, every sink invocation has
`is_last = false`. -/
theorem feedLoop_not_last_events {σ β : Type} (D : DecoderIface σ) (sink : Sink β)
    (enc : Encoding) (bufLen : Nat) :
    ∀ (fuel : Nat) (dec : σ) (raw : Bytes) (b : β) evs r p,
      feedLoop D sink enc bufLen false dec raw b fuel = some (evs, r, p) →
      ∀ ev ∈ evs, ev.is_last = false := by
  intro fuel
  induction fuel with
  | zero =>
    intro dec raw b evs r p h
    simp [feedLoop] at h
  | succ n ih =>
    intro dec raw b evs r p h
    simp only [feedLoop, Bool.false_and] at h
    split at h
    · split at h
      · simp only [Option.some.injEq, Prod.mk.injEq] at h
        obtain ⟨he, -, -⟩ := h
        subst he
        intro ev hev
        simp at hev
        subst hev
        rfl
      · split at h
        · simp only [Option.some.injEq, Prod.mk.injEq] at h
          obtain ⟨he, -, -⟩ := h
          subst he
          intro ev hev
          simp at hev
          subst hev
          rfl
        · split at h
          · exact absurd h (by simp)
          · rename_i evs' r' p' heq
            simp only [Option.some.injEq, Prod.mk.injEq] at h
            obtain ⟨he, -, -⟩ := h
            subst he
            intro ev hev
            rcases List.mem_cons.mp hev with hev | hev
            · subst hev; rfl
            · exact ih _ _ _ _ _ _ heq ev hev
    · split at h
      · simp only [Option.some.injEq, Prod.mk.injEq] at h
        obtain ⟨he, -, -⟩ := h
        subst he
        intro ev hev
        simp at hev
      · exact fun ev hev => ih _ _ _ _ _ _ h ev hev

/-- A non-last run of the decode loop that returns `Ok` leaves a pending
decoder behind. -/
theorem feedLoop_not_last_ok_pending {σ β : Type} (D : DecoderIface σ) (sink : Sink β)
    (enc : Encoding) (bufLen : Nat) :
    ∀ (fuel : Nat) (dec : σ) (raw : Bytes) (b : β) evs (b' : β) p,
      feedLoop D sink enc bufLen false dec raw b fuel = some (evs, Except.ok b', p) →
      p.isSome = true := by
  intro fuel
  induction fuel with
  | zero =>
    intro dec raw b evs b' p h
    simp [feedLoop] at h
  | succ n ih =>
    intro dec raw b evs b' p h
    simp only [feedLoop, Bool.false_and] at h
    split at h
    · split at h
      · simp at h
      · split at h
        · simp only [Bool.false_eq_true, if_false, Option.some.injEq,
            Prod.mk.injEq] at h
          obtain ⟨-, -, hp⟩ := h
          subst hp
          rfl
        · split at h
          · exact absurd h (by simp)
          · rename_i evs' r' p' heq
            simp only [Option.some.injEq, Prod.mk.injEq] at h
            obtain ⟨-, hr, hp⟩ := h
            subst hp
            subst hr
            exact ih _ _ _ _ _ _ heq
    · split at h
      · simp only [Bool.false_eq_true, if_false, Option.some.injEq,
          Prod.mk.injEq] at h
        obtain ⟨-, -, hp⟩ := h
        subst hp
        rfl
      · exact ih _ _ _ _ _ _ h

/-- A last run of the decode loop that returns `Ok` invokes the sink at least
once, with `is_last = true` exactly on the final invocation, and clears the
pending decoder. -/
theorem feedLoop_last_ok_shape {σ β : Type} (D : DecoderIface σ) (sink : Sink β)
    (enc : Encoding) (bufLen : Nat) :
    ∀ (fuel : Nat) (dec : σ) (raw : Bytes) (b : β) evs (b' : β) p,
      feedLoop D sink enc bufLen true dec raw b fuel = some (evs, Except.ok b', p) →
      lastShape evs ∧ p = none := by
  intro fuel
  induction fuel with
  | zero =>
    intro dec raw b evs b' p h
    simp [feedLoop] at h
  | succ n ih =>
    intro dec raw b evs b' p h
    simp only [feedLoop, or_true, if_true, Bool.true_and] at h
    split at h
    · simp at h
    · split at h
      · rename_i hfin
        simp only [if_true, Option.some.injEq, Prod.mk.injEq] at h
        obtain ⟨he, -, hp⟩ := h
        subst he
        subst hp
        exact ⟨lastShape_singleton _ (by simp [hfin]), rfl⟩
      · rename_i hfin
        split at h
        · exact absurd h (by simp)
        · rename_i evs' r' p' heq
          simp only [Option.some.injEq, Prod.mk.injEq] at h
          obtain ⟨he, hr, hp⟩ := h
          subst he
          subst hp
          subst hr
          obtain ⟨hshape, hp⟩ := ih _ _ _ _ _ _ heq
          refine ⟨lastShape_cons _ _ ?_ hshape, hp⟩
          simpa using hfin

/-- When the decode loop returns the sink's error, the erroring invocation is
the final one: the events split into a front the sink accepted and one last
event on which the sink returned exactly that error. -/
theorem feedLoop_error_shape {σ β : Type} (D : DecoderIface σ) (sink : Sink β)
    (enc : Encoding) (bufLen : Nat) (last : Bool) :
    ∀ (fuel : Nat) (dec : σ) (raw : Bytes) (b : β) evs (e : Err) p,
      feedLoop D sink enc bufLen last dec raw b fuel = some (evs, Except.error e, p) →
      ∃ init ev b2, evs = init ++ [ev] ∧ foldSink sink b init = Except.ok b2 ∧
        sink b2 ev.text ev.is_last ev.enc = Except.error e := by
  intro fuel
  induction fuel with
  | zero =>
    intro dec raw b evs e p h
    simp [feedLoop] at h
  | succ n ih =>
    intro dec raw b evs e p h
    simp only [feedLoop] at h
    split at h
    · split at h
      · rename_i hs
        simp only [Option.some.injEq, Prod.mk.injEq] at h
        obtain ⟨he, hr, -⟩ := h
        subst he
        simp only [Except.error.injEq] at hr
        subst hr
        exact ⟨[], _, b, rfl, rfl, hs⟩
      · rename_i b2 hs
        split at h
        · simp at h
        · split at h
          · exact absurd h (by simp)
          · rename_i evs' r' p' heq
            simp only [Option.some.injEq, Prod.mk.injEq] at h
            obtain ⟨he, hr, -⟩ := h
            subst he
            subst hr
            obtain ⟨init', ev, b3, hsplit, hfold, herr⟩ := ih _ _ _ _ _ _ heq
            refine ⟨⟨(D.decode dec raw bufLen last).out,
              last && decide ((D.decode dec raw bufLen last).status = CoderResult.inputEmpty),
              enc⟩ :: init', ev, b3, ?_, ?_, herr⟩
            · simp [hsplit]
            · simpa [foldSink, hs] using hfold
    · split at h
      · simp at h
      · exact ih _ _ _ _ _ _ h

/-- Every sink invocation of the decode loop carries the snapshotted encoding
as `encoding_used`. -/
theorem feedLoop_events_enc {σ β : Type} (D : DecoderIface σ) (sink : Sink β)
    (enc : Encoding) (bufLen : Nat) (last : Bool) :
    ∀ (fuel : Nat) (dec : σ) (raw : Bytes) (b : β) evs r p,
      feedLoop D sink enc bufLen last dec raw b fuel = some (evs, r, p) →
      ∀ ev ∈ evs, ev.enc = enc := by
  intro fuel
  induction fuel with
  | zero =>
    intro dec raw b evs r p h
    simp [feedLoop] at h
  | succ n ih =>
    intro dec raw b evs r p h
    simp only [feedLoop] at h
    split at h
    · split at h
      · simp only [Option.some.injEq, Prod.mk.injEq] at h
        obtain ⟨he, -, -⟩ := h
        subst he
        intro ev hev
        simp at hev
        subst hev
        rfl
      · split at h
        · simp only [Option.some.injEq, Prod.mk.injEq] at h
          obtain ⟨he, -, -⟩ := h
          subst he
          intro ev hev
          simp at hev
          subst hev
          rfl
        · split at h
          · exact absurd h (by simp)
          · rename_i evs' r' p' heq
            simp only [Option.some.injEq, Prod.mk.injEq] at h
            obtain ⟨he, -, -⟩ := h
            subst he
            intro ev hev
            rcases List.mem_cons.mp hev with hev | hev
            · subst hev; rfl
            · exact ih _ _ _ _ _ _ heq ev hev
    · split at h
      · simp only [Option.some.injEq, Prod.mk.injEq] at h
        obtain ⟨he, -, -⟩ := h
        subst he
        intro ev hev
        simp at hev
      · exact fun ev hev => ih _ _ _ _ _ _ h ev hev

/-- A successful fast path requires that no decoder is pending. -/
theorem split_utf8_start_some_pending {σ : Type} (st : TextDecoder σ) (raw : Bytes)
    (enc : Encoding) (t rest : Bytes) (h : split_utf8_start st raw enc = some (t, rest)) :
    st.pending_text_streaming_decoder = none := by
  cases hp : st.pending_text_streaming_decoder with
  | none => rfl
  | some d =>
    rw [split_utf8_start, hp] at h
    simp at h

theorem feed_text_slow_not_last {σ β : Type} (D : DecoderIface σ) (sink : Sink β)
    (st : TextDecoder σ) (raw : Bytes) (enc : Encoding) (b : β) (fuel : Nat)
    (out : FeedOut σ β) (h : feed_text_slow D sink st raw false enc b fuel = some out) :
    (∀ ev ∈ out.events, ev.is_last = false) ∧
    (∀ b', out.res = Except.ok b' → out.pending.isSome = true) := by
  rw [feed_text_slow] at h
  split at h
  · simp at h
  · rename_i evs r p heq
    simp only [Option.some.injEq] at h
    subst h
    refine ⟨feedLoop_not_last_events D sink enc _ _ _ _ _ _ _ _ heq, ?_⟩
    intro b' hr
    simp only at hr
    rw [hr] at heq
    exact feedLoop_not_last_ok_pending D sink enc _ _ _ _ _ _ _ _ heq

theorem feed_text_slow_last_ok {σ β : Type} (D : DecoderIface σ) (sink : Sink β)
    (st : TextDecoder σ) (raw : Bytes) (enc : Encoding) (b : β) (fuel : Nat)
    (out : FeedOut σ β) (b' : β)
    (h : feed_text_slow D sink st raw true enc b fuel = some out)
    (hr : out.res = Except.ok b') :
    lastShape out.events ∧ out.pending = none := by
  rw [feed_text_slow] at h
  split at h
  · simp at h
  · rename_i evs r p heq
    simp only [Option.some.injEq] at h
    subst h
    simp only at hr
    rw [hr] at heq
    exact feedLoop_last_ok_shape D sink enc _ _ _ _ _ _ _ _ heq

theorem feed_text_slow_error_shape {σ β : Type} (D : DecoderIface σ) (sink : Sink β)
    (st : TextDecoder σ) (raw : Bytes) (last : Bool) (enc : Encoding) (b : β)
    (fuel : Nat) (out : FeedOut σ β) (e : Err)
    (h : feed_text_slow D sink st raw last enc b fuel = some out)
    (hr : out.res = Except.error e) :
    ∃ init ev b2, out.events = init ++ [ev] ∧ foldSink sink b init = Except.ok b2 ∧
      sink b2 ev.text ev.is_last ev.enc = Except.error e := by
  rw [feed_text_slow] at h
  split at h
  · simp at h
  · rename_i evs r p heq
    simp only [Option.some.injEq] at h
    subst h
    simp only at hr
    rw [hr] at heq
    exact feedLoop_error_shape D sink enc _ _ _ _ _ _ _ _ _ heq

theorem feed_text_slow_events_enc {σ β : Type} (D : DecoderIface σ) (sink : Sink β)
    (st : TextDecoder σ) (raw : Bytes) (last : Bool) (enc : Encoding) (b : β)
    (fuel : Nat) (out : FeedOut σ β)
    (h : feed_text_slow D sink st raw last enc b fuel = some out) :
    ∀ ev ∈ out.events, ev.enc = enc := by
  rw [feed_text_slow] at h
  split at h
  · simp at h
  · rename_i evs r p heq
    simp only [Option.some.injEq] at h
    subst h
    exact feedLoop_events_enc D sink enc _ _ _ _ _ _ _ _ _ heq

theorem feed_text_slow_bufLen {σ β : Type} (D : DecoderIface σ) (sink : Sink β)
    (st : TextDecoder σ) (raw : Bytes) (last : Bool) (enc : Encoding) (b : β)
    (fuel : Nat) (out : FeedOut σ β)
    (h : feed_text_slow D sink st raw last enc b fuel = some out) :
    out.bufLen = st.text_buffer_len := by
  rw [feed_text_slow] at h
  split at h
  · simp at h
  · simp only [Option.some.injEq] at h
    subst h
    rfl

/-- Every sink invocation of a non-last `feed_text` call has
`is_last = false`, and such a call, when it returns `Ok`, always leaves a
pending decoder behind. -/
theorem feed_text_not_last {σ β : Type} (D : DecoderIface σ) (sink : Sink β)
    (st : TextDecoder σ) (raw : Bytes) (enc : Encoding) (b : β) (fuel : Nat)
    (out : FeedOut σ β) (h : feed_text D sink st raw false enc b fuel = some out) :
    (∀ ev ∈ out.events, ev.is_last = false) ∧
    (∀ b', out.res = Except.ok b' → out.pending.isSome = true) := by
  rw [feed_text] at h
  split at h
  · rename_i t rest hsp
    simp only [Bool.false_and] at h
    split at h
    · rename_i e hs
      simp only [Option.some.injEq] at h
      subst h
      refine ⟨?_, ?_⟩
      · intro ev hev
        simp at hev
        subst hev
        rfl
      · intro b' hr
        simp at hr
    · rename_i b' hs
      simp only [Bool.false_eq_true, if_false] at h
      split at h
      · simp at h
      · rename_i out' heq
        simp only [Option.some.injEq] at h
        subst h
        obtain ⟨hevs, hpend⟩ := feed_text_slow_not_last D sink st rest enc b' fuel out' heq
        refine ⟨?_, ?_⟩
        · intro ev hev
          rcases List.mem_cons.mp hev with hev | hev
          · subst hev; rfl
          · exact hevs ev hev
        · intro b2 hr
          exact hpend b2 hr
  · exact feed_text_slow_not_last D sink st raw enc b fuel out h

/-- A last `feed_text` call that returns `Ok` invokes the sink at least once,
with `is_last = true` exactly on the final invocation, and ends with no
pending decoder. -/
theorem feed_text_last_ok {σ β : Type} (D : DecoderIface σ) (sink : Sink β)
    (st : TextDecoder σ) (raw : Bytes) (enc : Encoding) (b : β) (fuel : Nat)
    (out : FeedOut σ β) (b' : β)
    (h : feed_text D sink st raw true enc b fuel = some out)
    (hr : out.res = Except.ok b') :
    lastShape out.events ∧ out.pending = none := by
  rw [feed_text] at h
  split at h
  · rename_i t rest hsp
    by_cases hrest : rest = []
    · subst hrest
      simp only [decide_true_eq_true, List.nil_eq, decide_eq_true_eq] at h
      simp only [Bool.and_true, decide_True] at h
      split at h
      · rename_i e hs
        simp only [Option.some.injEq] at h
        subst h
        simp at hr
      · rename_i b2 hs
        simp only [if_true] at h
        simp only [Option.some.injEq] at h
        subst h
        exact ⟨lastShape_singleton _ rfl,
          split_utf8_start_some_pending st raw enc t [] hsp⟩
    · simp only [hrest, decide_False, Bool.and_false] at h
      split at h
      · rename_i e hs
        simp only [Option.some.injEq] at h
        subst h
        simp at hr
      · rename_i b2 hs
        simp only [Bool.false_eq_true, if_false] at h
        split at h
        · simp at h
        · rename_i out' heq
          simp only [Option.some.injEq] at h
          subst h
          simp only at hr
          obtain ⟨hshape, hpend⟩ :=
            feed_text_slow_last_ok D sink st rest enc b2 fuel out' b' heq hr
          exact ⟨lastShape_cons _ _ rfl hshape, hpend⟩
  · exact feed_text_slow_last_ok D sink st raw enc b fuel out b' h hr

/-- When `feed_text` returns the sink's error, the erroring invocation was
the final one, the sink accepted every earlier invocation, and the error is
returned verbatim. -/
theorem feed_text_error_shape {σ β : Type} (D : DecoderIface σ) (sink : Sink β)
    (st : TextDecoder σ) (raw : Bytes) (last : Bool) (enc : Encoding) (b : β)
    (fuel : Nat) (out : FeedOut σ β) (e : Err)
    (h : feed_text D sink st raw last enc b fuel = some out)
    (hr : out.res = Except.error e) :
    ∃ init ev b2, out.events = init ++ [ev] ∧ foldSink sink b init = Except.ok b2 ∧
      sink b2 ev.text ev.is_last ev.enc = Except.error e := by
  simp only [feed_text] at h
  split at h
  · rename_i t rest hsp
    split at h
    · rename_i e' hs
      simp only [Option.some.injEq] at h
      subst h
      simp only [Except.error.injEq] at hr
      subst hr
      exact ⟨[], _, b, rfl, rfl, hs⟩
    · rename_i b2 hs
      split at h
      · simp only [Option.some.injEq] at h
        subst h
        simp at hr
      · split at h
        · simp at h
        · rename_i out' heq
          simp only [Option.some.injEq] at h
          subst h
          simp only at hr
          obtain ⟨init', ev, b3, hsplit, hfold, herr⟩ :=
            feed_text_slow_error_shape D sink st rest last enc b2 fuel out' e heq hr
          refine ⟨⟨t, last && decide (rest = []), enc⟩ :: init', ev, b3, ?_, ?_, herr⟩
          · simp [hsplit]
          · simpa [foldSink, hs] using hfold
  · exact feed_text_slow_error_shape D sink st raw last enc b fuel out e h hr

/-- Every sink invocation of a `feed_text` call carries the snapshotted
encoding as `encoding_used`. -/
theorem feed_text_events_enc {σ β : Type} (D : DecoderIface σ) (sink : Sink β)
    (st : TextDecoder σ) (raw : Bytes) (last : Bool) (enc : Encoding) (b : β)
    (fuel : Nat) (out : FeedOut σ β)
    (h : feed_text D sink st raw last enc b fuel = some out) :
    ∀ ev ∈ out.events, ev.enc = enc := by
  simp only [feed_text] at h
  split at h
  · rename_i t rest hsp
    split at h
    · simp only [Option.some.injEq] at h
      subst h
      intro ev hev
      simp at hev
      subst hev
      rfl
    · split at h
      · simp only [Option.some.injEq] at h
        subst h
        intro ev hev
        simp at hev
        subst hev
        rfl
      · split at h
        · simp at h
        · rename_i out' heq
          simp only [Option.some.injEq] at h
          subst h
          intro ev hev
          rcases List.mem_cons.mp hev with hev | hev
          · subst hev; rfl
          · exact feed_text_slow_events_enc D sink st rest last enc _ fuel out' heq ev hev
  · exact feed_text_slow_events_enc D sink st raw last enc b fuel out h

/-- A `feed_text` call never changes the scratch-buffer length. -/
theorem feed_text_bufLen {σ β : Type} (D : DecoderIface σ) (sink : Sink β)
    (st : TextDecoder σ) (raw : Bytes) (last : Bool) (enc : Encoding) (b : β)
    (fuel : Nat) (out : FeedOut σ β)
    (h : feed_text D sink st raw last enc b fuel = some out) :
    out.bufLen = st.text_buffer_len := by
  simp only [feed_text] at h
  split at h
  · rename_i t rest hsp
    split at h
    · simp only [Option.some.injEq] at h
      subst h
      rfl
    · split at h
      · simp only [Option.some.injEq] at h
        subst h
        rfl
      · split at h
        · simp at h
        · rename_i out' heq
          simp only [Option.some.injEq] at h
          subst h
          exact feed_text_slow_bufLen D sink st rest last enc _ fuel out' heq
  · exact feed_text_slow_bufLen D sink st raw last enc b fuel out h

/-! Segment runs: zero or more non-last `feed_text` calls followed by a
terminator, which is either a `feed_text` call with
`is_last_chunk_of_segment = true` or a `flush_pending` call.  Each call
snapshots its own encoding and carries its own fuel. -/

/-- Run a list of non-last `feed_text` calls, stopping at the first sink
error or exhausted fuel. -/
def runSeg {σ β : Type} (D : DecoderIface σ) (sink : Sink β) :
    TextDecoder σ → β → List (Bytes × Encoding × Nat) →
    Option (List Event × Except Err β × TextDecoder σ)
  | st, b, [] => some ([], Except.ok b, st)
  | st, b, (raw, enc, fuel) :: rest =>
    match feed_text D sink st raw false enc b fuel with
    | none => none
    | some out =>
      match out.res with
      | Except.error e => some (out.events, Except.error e, ⟨out.pending, out.bufLen⟩)
      | Except.ok b' =>
        match runSeg D sink ⟨out.pending, out.bufLen⟩ b' rest with
        | none => none
        | some (evs, r, st') => some (out.events ++ evs, r, st')

/-- How a segment ends: a last `feed_text` call, or a `flush_pending` call. -/
inductive SegEnd where
  | lastFeed (raw : Bytes) (enc : Encoding) (fuel : Nat)
  | flushEnd (enc : Encoding) (fuel : Nat)

/-- Run the segment terminator. -/
def runEnd {σ β : Type} (D : DecoderIface σ) (sink : Sink β) (st : TextDecoder σ)
    (b : β) : SegEnd → Option (FeedOut σ β)
  | SegEnd.lastFeed raw enc fuel => feed_text D sink st raw true enc b fuel
  | SegEnd.flushEnd enc fuel => flush_pending D sink st enc b fuel

/-- Run one whole segment: the non-last calls, then the terminator. -/
def runSegment {σ β : Type} (D : DecoderIface σ) (sink : Sink β) (st : TextDecoder σ)
    (b : β) (cs : List (Bytes × Encoding × Nat)) (fin : SegEnd) :
    Option (List Event × Except Err β × TextDecoder σ) :=
  match runSeg D sink st b cs with
  | none => none
  | some (evs, Except.error e, st') => some (evs, Except.error e, st')
  | some (evs, Except.ok b', st') =>
    match runEnd D sink st' b' fin with
    | none => none
    | some out => some (evs ++ out.events, out.res, ⟨out.pending, out.bufLen⟩)

theorem lastShape_append_front (front evs : List Event)
    (hf : ∀ ev ∈ front, ev.is_last = false) (hs : lastShape evs) :
    lastShape (front ++ evs) := by
  induction front with
  | nil => simpa using hs
  | cons ev front ih =>
    rw [List.cons_append]
    exact lastShape_cons _ _ (hf ev (List.mem_cons_self ev front))
      (ih fun x hx => hf x (List.mem_cons_of_mem ev hx))

/-- An `Ok` run of the non-last calls has only `is_last = false` events, and
when at least one call was made it leaves a pending decoder. -/
theorem runSeg_ok {σ β : Type} (D : DecoderIface σ) (sink : Sink β) :
    ∀ (cs : List (Bytes × Encoding × Nat)) (st : TextDecoder σ) (b : β) evs
      (b' : β) st',
      runSeg D sink st b cs = some (evs, Except.ok b', st') →
      (∀ ev ∈ evs, ev.is_last = false) ∧
      (cs ≠ [] → st'.pending_text_streaming_decoder.isSome = true) := by
  intro cs
  induction cs with
  | nil =>
    intro st b evs b' st' h
    simp only [runSeg, Option.some.injEq, Prod.mk.injEq] at h
    obtain ⟨he, -, -⟩ := h
    subst he
    exact ⟨by simp, fun hne => absurd rfl hne⟩
  | cons c rest ih =>
    obtain ⟨raw, enc, fuel⟩ := c
    intro st b evs b' st' h
    rw [runSeg] at h
    split at h
    · simp at h
    · rename_i out hout
      split at h
      · simp at h
      · rename_i b1 hres
        split at h
        · simp at h
        · rename_i evs2 r2 st2 hrest
          simp only [Option.some.injEq, Prod.mk.injEq] at h
          obtain ⟨he, hr, hst⟩ := h
          subst he
          subst hst
          subst hr
          obtain ⟨hf, -⟩ := feed_text_not_last D sink st raw enc b fuel out hout
          obtain ⟨hf2, hpend2⟩ := ih _ _ _ _ _ hrest
          refine ⟨?_, ?_⟩
          · intro ev hev
            rcases List.mem_append.mp hev with hev | hev
            · exact hf ev hev
            · exact hf2 ev hev
          · intro hne
            cases rest with
            | nil =>
              simp only [runSeg, Option.some.injEq, Prod.mk.injEq] at hrest
              obtain ⟨-, -, hst2⟩ := hrest
              subst hst2
              exact (feed_text_not_last D sink st raw enc b fuel out hout).2 b1 hres
            | cons c2 rest2 => exact hpend2 (by simp)

/-- C1 (amended): across one segment — zero or more non-last `feed_text`
calls followed by a last `feed_text` call, or at least one non-last call
followed by `flush_pending` — in which every call returns `Ok`, the sink
receives `is_last = true` exactly once, on the final invocation, and
`is_last = false` on every other invocation. -/
theorem segment_is_last_exactly_once {σ β : Type} (D : DecoderIface σ)
    (sink : Sink β) (st : TextDecoder σ) (b : β)
    (cs : List (Bytes × Encoding × Nat)) (fin : SegEnd) (evs : List Event)
    (b' : β) (st' : TextDecoder σ)
    (h : runSegment D sink st b cs fin = some (evs, Except.ok b', st'))
    (hflush : ∀ enc fuel, fin = SegEnd.flushEnd enc fuel → cs ≠ []) :
    lastShape evs := by
  rw [runSegment] at h
  split at h
  · simp at h
  · simp at h
  · rename_i evs1 b1 st1 hseg
    split at h
    · simp at h
    · rename_i out hend
      simp only [Option.some.injEq, Prod.mk.injEq] at h
      obtain ⟨he, hr, -⟩ := h
      subst he
      obtain ⟨hf, hpend⟩ := runSeg_ok D sink cs st b evs1 b1 st1 hseg
      refine lastShape_append_front evs1 out.events hf ?_
      cases fin with
      | lastFeed raw enc fuel =>
        exact (feed_text_last_ok D sink st1 raw enc b1 fuel out b' hend hr).1
      | flushEnd enc fuel =>
        have hps : st1.pending_text_streaming_decoder.isSome = true :=
          hpend (hflush enc fuel rfl)
        rw [runEnd, flush_pending, if_pos hps] at hend
        exact (feed_text_last_ok D sink st1 [] enc b1 fuel out b' hend hr).1

/-- C1 counterexample: a segment consisting of zero `feed_text` calls
followed by `flush_pending` on a fresh decoder succeeds with zero sink
invocations, so `is_last = true` is not passed exactly once. -/
theorem segment_flush_only_counterexample :
    runSegment u8Decoder collectSink (TextDecoder.new Bytes) [] []
        (SegEnd.flushEnd UTF_8 1) =
      some ([], Except.ok [], TextDecoder.new Bytes) ∧
    ¬ lastShape ([] : List Event) := by
  refine ⟨rfl, ?_⟩
  intro hls
  simp [lastShape] at hls

/-- C1 witness: a two-chunk segment (a split three-byte character) delivers
one sink invocation, with `is_last = true` on it. -/
theorem segment_is_last_exactly_once_witness :
    lastShape [⟨[0xE2, 0x82, 0xAC], true, UTF_8⟩] :=
  segment_is_last_exactly_once u8Decoder collectSink (TextDecoder.new Bytes) []
    [([0xE2], UTF_8, 1)] (SegEnd.lastFeed [0x82, 0xAC] UTF_8 1)
    [⟨[0xE2, 0x82, 0xAC], true, UTF_8⟩] [[0xE2, 0x82, 0xAC]] (TextDecoder.new Bytes)
    rfl (fun enc fuel hne => by simp)

/-- C7: a sink error aborts the call at once — the erroring invocation is the
final one, every earlier invocation was accepted by the sink, and the error is
returned verbatim; and when the sink never fails, `feed_text` and
`flush_pending` never fail either (malformed input is absorbed by the
replacement policy of the decoder, never surfaced as an error). -/
theorem sink_error_propagation {σ β : Type} (D : DecoderIface σ) (sink : Sink β)
    (st : TextDecoder σ) (raw : Bytes) (last : Bool) (enc : Encoding) (b : β)
    (fuel : Nat) (out : FeedOut σ β)
    (h : feed_text D sink st raw last enc b fuel = some out ∨
      flush_pending D sink st enc b fuel = some out) :
    (∀ e, out.res = Except.error e →
      ∃ init ev b2, out.events = init ++ [ev] ∧ foldSink sink b init = Except.ok b2 ∧
        sink b2 ev.text ev.is_last ev.enc = Except.error e) ∧
    ((∀ b2 t l en, ∃ b3, sink b2 t l en = Except.ok b3) →
      ∃ b', out.res = Except.ok b') := by
  have herr : ∀ e, out.res = Except.error e →
      ∃ init ev b2, out.events = init ++ [ev] ∧ foldSink sink b init = Except.ok b2 ∧
        sink b2 ev.text ev.is_last ev.enc = Except.error e := by
    intro e hr
    rcases h with h | h
    · exact feed_text_error_shape D sink st raw last enc b fuel out e h hr
    · rw [flush_pending] at h
      split at h
      · exact feed_text_error_shape D sink st [] true enc b fuel out e h hr
      · simp only [Option.some.injEq] at h
        subst h
        simp at hr
  refine ⟨herr, ?_⟩
  intro htotal
  cases hres : out.res with
  | ok b' => exact ⟨b', rfl⟩
  | error e =>
    obtain ⟨init, ev, b2, -, -, hsink⟩ := herr e hres
    obtain ⟨b3, hok⟩ := htotal b2 ev.text ev.is_last ev.enc
    rw [hok] at hsink
    exact absurd hsink (by simp)

/-- A sink that accepts the first invocation and fails the second. -/
def failSecondSink : Sink Nat := fun n _ _ _ =>
  if n = 0 then Except.ok 1 else Except.error ⟨7⟩

/-- C7 witness: a call that makes two sink invocations, the second of which
fails; the call returns that error and the erroring invocation is the last. -/
theorem sink_error_propagation_witness :
    (∀ e, (Except.error ⟨7⟩ : Except Err Nat) = Except.error e →
      ∃ init ev b2,
        ([⟨[0x41, 0x42, 0x43, 0x44], false, UTF_8⟩,
          ⟨[0xEF, 0xBF, 0xBD], true, UTF_8⟩] : List Event) = init ++ [ev] ∧
        foldSink failSecondSink 0 init = Except.ok b2 ∧
        failSecondSink b2 ev.text ev.is_last ev.enc = Except.error e) ∧
    ((∀ b2 t l en, ∃ b3, failSecondSink b2 t l en = Except.ok b3) →
      ∃ b', (Except.error ⟨7⟩ : Except Err Nat) = Except.ok b') :=
  sink_error_propagation u8Decoder failSecondSink ⟨none, 4⟩
    [0x41, 0x42, 0x43, 0x44, 0xC3] true UTF_8 0 2
    ⟨[⟨[0x41, 0x42, 0x43, 0x44], false, UTF_8⟩, ⟨[0xEF, 0xBF, 0xBD], true, UTF_8⟩],
      Except.error ⟨7⟩, some [], 4⟩
    (Or.inl rfl)

/-- C8: `flush_pending` with no pending decode is a no-op (zero sink
invocations, `Ok`, state unchanged); with a pending decode it is exactly
`feed_text` on an empty last chunk; and after any `feed_text` or
`flush_pending` with `is_last = true` that returns `Ok`, the pending decode
state is cleared. -/
theorem flush_pending_spec {σ β : Type} (D : DecoderIface σ) (sink : Sink β)
    (st : TextDecoder σ) (enc : Encoding) (b : β) (fuel : Nat) :
    (st.pending_text_streaming_decoder = none →
      flush_pending D sink st enc b fuel =
        some ⟨[], Except.ok b, none, st.text_buffer_len⟩) ∧
    (st.pending_text_streaming_decoder.isSome = true →
      flush_pending D sink st enc b fuel = feed_text D sink st [] true enc b fuel) ∧
    (∀ raw fuel2 out (b' : β), feed_text D sink st raw true enc b fuel2 = some out →
      out.res = Except.ok b' → out.pending = none) ∧
    (∀ out (b' : β), flush_pending D sink st enc b fuel = some out →
      out.res = Except.ok b' → out.pending = none) := by
  refine ⟨?_, ?_, ?_, ?_⟩
  · intro hp
    rw [flush_pending, hp]
    simp
  · intro hp
    rw [flush_pending, if_pos hp]
  · intro raw fuel2 out b' h hr
    exact (feed_text_last_ok D sink st raw enc b fuel2 out b' h hr).2
  · intro out b' h hr
    rw [flush_pending] at h
    split at h
    · exact (feed_text_last_ok D sink st [] enc b fuel out b' h hr).2
    · rename_i hp
      simp only [Option.some.injEq] at h
      subst h
      simp only at hr ⊢
      simpa using hp

/-- C8 witness: `flush_pending` on a fresh decoder is a no-op. -/
theorem flush_pending_spec_witness :
    flush_pending u8Decoder collectSink (TextDecoder.new Bytes) UTF_8 [] 1 =
      some ⟨[], Except.ok [], none, 1024⟩ :=
  (flush_pending_spec u8Decoder collectSink (TextDecoder.new Bytes) UTF_8 [] 1).1 rfl

/-- C4 counterexample: `feed_text` on an empty slice with no pending decode
invokes the sink once (with empty text), not zero times, and the non-last
call is not a no-op — it creates pending decode state. -/
theorem feed_text_empty_invokes_sink :
    (feed_text u8Decoder collectSink (TextDecoder.new Bytes) [] false UTF_8 [] 2).map
        (fun o => (o.events, o.pending.isSome)) =
      some ([⟨[], false, UTF_8⟩], true) ∧
    (feed_text u8Decoder collectSink (TextDecoder.new Bytes) [] true UTF_8 [] 2).map
        (fun o => o.events) =
      some [⟨[], true, UTF_8⟩] := by
  exact ⟨by decide, by decide⟩

/-- C4 (amended): with no pending decode, `feed_text` on an empty slice
invokes the sink exactly once with empty text — with `is_last = false` on a
non-last call (which creates pending decode state and returns the sink's
`Ok`), and with `is_last = true` on a last call (returning the sink's
result); with a pending decode, an empty last call that returns `Ok` ends
with `is_last = true` on its final sink invocation and clears the pending
state. -/
theorem split_utf8_start_empty {σ : Type} (st : TextDecoder σ) (enc : Encoding)
    (hp : st.pending_text_streaming_decoder = none) :
    split_utf8_start st [] enc = some ([], []) := by
  have h1 : utf8ValidUpTo [] = 0 := rfl
  have h2 : asciiValidUpTo [] = 0 := rfl
  by_cases henc : enc = UTF_8 <;>
    simp [split_utf8_start, hp, henc, h1, h2]

theorem feed_text_empty_input {σ β : Type} (D : DecoderIface σ) (sink : Sink β)
    (st : TextDecoder σ) (enc : Encoding) (b : β) (fuel : Nat) :
    (st.pending_text_streaming_decoder = none → ∀ b',
      sink b [] false enc = Except.ok b' →
      feed_text u8Decoder sink ⟨none, st.text_buffer_len⟩ [] false enc b (fuel + 1) =
        some ⟨[⟨[], false, enc⟩], Except.ok b', some [], st.text_buffer_len⟩) ∧
    (st.pending_text_streaming_decoder = none →
      feed_text D sink st [] true enc b fuel =
        some ⟨[⟨[], true, enc⟩], sink b [] true enc, none, st.text_buffer_len⟩) ∧
    (∀ d out (b' : β), st.pending_text_streaming_decoder = some d →
      feed_text D sink st [] true enc b fuel = some out →
      out.res = Except.ok b' → lastShape out.events ∧ out.pending = none) := by
  refine ⟨?_, ?_, ?_⟩
  · intro hp b' hs
    have hsp := split_utf8_start_empty (σ := Bytes) ⟨none, st.text_buffer_len⟩ enc rfl
    rw [feed_text, hsp]
    simp only [Bool.false_and, decide_False]
    rw [hs]
    simp [feed_text_slow, feedLoop, u8Decoder, u8decodeGo, u8unitC]
  · intro hp
    have hsp := split_utf8_start_empty st enc hp
    rw [feed_text, hsp]
    cases hs : sink b [] true enc <;> simp [hs, hp]
  · intro d out b' hp h hr
    exact feed_text_last_ok D sink st [] enc b fuel out b' h hr

/-- C4 witness: concrete empty-input runs through the amended statement. -/
theorem feed_text_empty_input_witness :
    feed_text u8Decoder collectSink ⟨none, 1024⟩ [] false UTF_8 [] 2 =
      some ⟨[⟨[], false, UTF_8⟩], Except.ok [[]], some [], 1024⟩ :=
  (feed_text_empty_input u8Decoder collectSink (TextDecoder.new Bytes) UTF_8 [] 1).1
    rfl [[]] rfl

/-!
Sinks that may call `SharedEncoding::set` while handling an invocation.  The
slot is threaded through the sink state; the call itself reads the slot once
at entry (`let encoding = self.encoding.get()`, line 41 of the source) and
uses only that snapshot afterwards.
-/

/-- A sink that, besides accepting or rejecting the text, may request a
`SharedEncoding::set` to a new encoding. -/
abbrev SetSink (β : Type) :=
  β → Bytes → Bool → Encoding → Except Err β × Option AsciiCompatibleEncoding

/-- Apply an optional `SharedEncoding::set` request to the slot. -/
def applySet (sl : SharedEncoding) : Option AsciiCompatibleEncoding → SharedEncoding
  | some f => SharedEncoding.set sl f
  | none => sl

/-- Interpret a `SetSink` over a state that carries the shared slot: an `Ok`
answer applies the requested `set` (if any) to the slot. -/
def withSlot {β : Type} (s : SetSink β) : Sink (β × SharedEncoding) :=
  fun bs t l e =>
    (s bs.1 t l e).1.map (fun b' => (b', applySet bs.2 (s bs.1 t l e).2))

/-- The same sink with its `set` requests discarded. -/
def stripSets {β : Type} (s : SetSink β) : Sink β := fun b t l e => (s b t l e).1

/-- `feed_text` on a decoder whose sink may mutate the shared encoding slot:
the encoding is read from the slot once at entry. -/
def feed_text_shared {σ β : Type} (D : DecoderIface σ) (s : SetSink β)
    (st : TextDecoder σ) (raw : Bytes) (last : Bool) (b : β)
    (slot : SharedEncoding) (fuel : Nat) : Option (FeedOut σ (β × SharedEncoding)) :=
  feed_text D (withSlot s) st raw last (SharedEncoding.get slot) (b, slot) fuel

/-- Correspondence between call results of the slot-carrying run and the
run that ignores `set` requests. -/
def ExceptRelFst {β : Type} :
    Except Err (β × SharedEncoding) → Except Err β → Prop
  | Except.ok bs, Except.ok b2 => bs.1 = b2
  | Except.error e₁, Except.error e₂ => e₁ = e₂
  | _, _ => False

theorem stripSets_of_withSlot_error {β : Type} (s : SetSink β) (b : β)
    (sl : SharedEncoding) (t : Bytes) (l : Bool) (e : Encoding) (er : Err)
    (h : withSlot s (b, sl) t l e = Except.error er) :
    stripSets s b t l e = Except.error er := by
  rw [withSlot] at h
  rw [stripSets]
  cases hres : (s b t l e).1 with
  | error er2 =>
    rw [hres] at h
    simp only [Except.map, Except.error.injEq] at h
    rw [h]
  | ok b2 =>
    rw [hres] at h
    simp [Except.map] at h

theorem stripSets_of_withSlot_ok {β : Type} (s : SetSink β) (b : β)
    (sl : SharedEncoding) (t : Bytes) (l : Bool) (e : Encoding)
    (bp : β × SharedEncoding)
    (h : withSlot s (b, sl) t l e = Except.ok bp) :
    stripSets s b t l e = Except.ok bp.1 := by
  rw [withSlot] at h
  rw [stripSets]
  cases hres : (s b t l e).1 with
  | error er2 =>
    rw [hres] at h
    simp [Except.map] at h
  | ok b2 =>
    rw [hres] at h
    simp only [Except.map, Except.ok.injEq] at h
    rw [← h]

theorem feedLoop_strip_sets {σ β : Type} (D : DecoderIface σ) (s : SetSink β)
    (enc : Encoding) (bufLen : Nat) (last : Bool) :
    ∀ (fuel : Nat) (dec : σ) (raw : Bytes) (b : β) (sl : SharedEncoding) evs r p,
      feedLoop D (withSlot s) enc bufLen last dec raw (b, sl) fuel = some (evs, r, p) →
      ∃ r', feedLoop D (stripSets s) enc bufLen last dec raw b fuel = some (evs, r', p) ∧
        ExceptRelFst r r' := by
  intro fuel
  induction fuel with
  | zero =>
    intro dec raw b sl evs r p h
    simp [feedLoop] at h
  | succ n ih =>
    intro dec raw b sl evs r p h
    simp only [feedLoop] at h ⊢
    split at h
    · rename_i hemit
      rw [if_pos hemit]
      split at h
      · rename_i er hws
        rw [stripSets_of_withSlot_error s b sl _ _ _ er hws]
        simp only [Option.some.injEq, Prod.mk.injEq] at h
        obtain ⟨he, hr, hp⟩ := h
        subst he
        subst hp
        subst hr
        exact ⟨Except.error er, rfl, rfl⟩
      · rename_i bp hws
        simp only [stripSets_of_withSlot_ok s b sl _ _ _ bp hws]
        split at h
        · rename_i hfin
          rw [if_pos hfin]
          simp only [Option.some.injEq, Prod.mk.injEq] at h
          obtain ⟨he, hr, hp⟩ := h
          subst he
          subst hp
          subst hr
          exact ⟨Except.ok bp.1, rfl, rfl⟩
        · rename_i hfin
          rw [if_neg hfin]
          split at h
          · exact absurd h (by simp)
          · rename_i evs' r' p' heq
            simp only [Option.some.injEq, Prod.mk.injEq] at h
            obtain ⟨he, hr, hp⟩ := h
            subst he
            subst hp
            subst hr
            have heq' : feedLoop D (withSlot s) enc bufLen last
                (D.decode dec raw bufLen last).state
                (raw.drop (D.decode dec raw bufLen last).read) (bp.1, bp.2) n =
                some (evs', r', p') := by
              rw [Prod.mk.eta]
              exact heq
            obtain ⟨r2, heq2, hrel⟩ := ih _ _ _ _ _ _ _ heq'
            rw [heq2]
            exact ⟨r2, rfl, hrel⟩
    · rename_i hemit
      rw [if_neg hemit]
      split at h
      · rename_i hfin
        rw [if_pos hfin]
        simp only [Option.some.injEq, Prod.mk.injEq] at h
        obtain ⟨he, hr, hp⟩ := h
        subst he
        subst hp
        subst hr
        exact ⟨Except.ok b, rfl, rfl⟩
      · rename_i hfin
        rw [if_neg hfin]
        exact ih _ _ _ _ _ _ _ h

theorem feed_text_slow_strip_sets {σ β : Type} (D : DecoderIface σ) (s : SetSink β)
    (st : TextDecoder σ) (raw : Bytes) (last : Bool) (enc : Encoding) (b : β)
    (sl : SharedEncoding) (fuel : Nat) (out : FeedOut σ (β × SharedEncoding))
    (h : feed_text_slow D (withSlot s) st raw last enc (b, sl) fuel = some out) :
    ∃ out', feed_text_slow D (stripSets s) st raw last enc b fuel = some out' ∧
      out'.events = out.events ∧ out'.pending = out.pending ∧
      out'.bufLen = out.bufLen ∧ ExceptRelFst out.res out'.res := by
  rw [feed_text_slow] at h
  split at h
  · simp at h
  · rename_i evs r p heq
    simp only [Option.some.injEq] at h
    subst h
    obtain ⟨r', heq2, hrel⟩ := feedLoop_strip_sets D s enc _ last fuel _ raw b sl evs r p heq
    exact ⟨⟨evs, r', p, st.text_buffer_len⟩, by rw [feed_text_slow, heq2], rfl, rfl, rfl, hrel⟩

theorem feed_text_strip_sets {σ β : Type} (D : DecoderIface σ) (s : SetSink β)
    (st : TextDecoder σ) (raw : Bytes) (last : Bool) (enc : Encoding) (b : β)
    (sl : SharedEncoding) (fuel : Nat) (out : FeedOut σ (β × SharedEncoding))
    (h : feed_text D (withSlot s) st raw last enc (b, sl) fuel = some out) :
    ∃ out', feed_text D (stripSets s) st raw last enc b fuel = some out' ∧
      out'.events = out.events ∧ out'.pending = out.pending ∧
      out'.bufLen = out.bufLen ∧ ExceptRelFst out.res out'.res := by
  cases hsp : split_utf8_start st raw enc with
  | none =>
    rw [feed_text, hsp] at h
    obtain ⟨out', heq2, hev, hp, hb, hrel⟩ :=
      feed_text_slow_strip_sets D s st raw last enc b sl fuel out h
    exact ⟨out', by rw [feed_text, hsp]; exact heq2, hev, hp, hb, hrel⟩
  | some tr =>
    obtain ⟨t, rest⟩ := tr
    simp only [feed_text, hsp] at h ⊢
    split at h
    · rename_i er hws
      rw [stripSets_of_withSlot_error s b sl _ _ _ er hws]
      simp only [Option.some.injEq] at h
      subst h
      exact ⟨_, rfl, rfl, rfl, rfl, rfl⟩
    · rename_i bp hws
      simp only [stripSets_of_withSlot_ok s b sl _ _ _ bp hws]
      split at h
      · rename_i hrl
        rw [if_pos hrl]
        simp only [Option.some.injEq] at h
        subst h
        exact ⟨_, rfl, rfl, rfl, rfl, rfl⟩
      · rename_i hrl
        rw [if_neg hrl]
        split at h
        · exact absurd h (by simp)
        · rename_i out2 heq
          simp only [Option.some.injEq] at h
          subst h
          have heq' : feed_text_slow D (withSlot s) st rest last enc (bp.1, bp.2) fuel =
              some out2 := by
            rw [Prod.mk.eta]
            exact heq
          obtain ⟨out2', heq2, hev, hp, hb, hrel⟩ :=
            feed_text_slow_strip_sets D s st rest last enc bp.1 bp.2 fuel out2 heq'
          rw [heq2]
          exact ⟨_, rfl, by simp [hev], by simp [hp], by simp [hb], hrel⟩

/-- C6: the encoding is read from the shared slot exactly once at call entry:
every sink invocation of the call passes that snapshot as `encoding_used`,
and `set` requests issued from inside the sink during the call have no effect
on that call — the invocations made, the pending state, the buffer length and
the error outcome are those of the same run with all `set` requests
discarded. -/
theorem encoding_snapshot_per_call {σ β : Type} (D : DecoderIface σ) (s : SetSink β)
    (st : TextDecoder σ) (raw : Bytes) (last : Bool) (b : β)
    (slot : SharedEncoding) (fuel : Nat) (out : FeedOut σ (β × SharedEncoding))
    (h : feed_text_shared D s st raw last b slot fuel = some out) :
    (∀ ev ∈ out.events, ev.enc = SharedEncoding.get slot) ∧
    ∃ out', feed_text D (stripSets s) st raw last (SharedEncoding.get slot) b fuel =
        some out' ∧
      out'.events = out.events ∧ out'.pending = out.pending ∧
      out'.bufLen = out.bufLen ∧ ExceptRelFst out.res out'.res := by
  rw [feed_text_shared] at h
  exact ⟨feed_text_events_enc D (withSlot s) st raw last (SharedEncoding.get slot)
      (b, slot) fuel out h,
    feed_text_strip_sets D s st raw last (SharedEncoding.get slot) b slot fuel out h⟩

/-- A set-capable sink that requests windows-1252 while handling the first
invocation and accepts everything. -/
def setOnFirstSink : SetSink Nat := fun n _ _ _ =>
  (Except.ok (n + 1), if n = 0 then some AsciiCompatibleEncoding.windows_1252 else none)

/-- C6 witness: a call making two sink invocations whose sink switches the
shared encoding to windows-1252 during the first one; both invocations still
carry the UTF-8 snapshot, and the emissions equal those of the request-free
run. -/
theorem encoding_snapshot_per_call_witness :
    (∀ ev ∈ ([⟨[0x41, 0x42, 0x43, 0x44], false, UTF_8⟩,
        ⟨[0xEF, 0xBF, 0xBD], true, UTF_8⟩] : List Event), ev.enc = SharedEncoding.get UTF_8) ∧
    ∃ out', feed_text u8Decoder (stripSets setOnFirstSink) ⟨none, 4⟩
        [0x41, 0x42, 0x43, 0x44, 0xC3] true (SharedEncoding.get UTF_8) 0 2 = some out' ∧
      out'.events = [⟨[0x41, 0x42, 0x43, 0x44], false, UTF_8⟩,
        ⟨[0xEF, 0xBF, 0xBD], true, UTF_8⟩] ∧
      out'.pending = none ∧ out'.bufLen = 4 ∧
      ExceptRelFst (Except.ok (2, WINDOWS_1252)) out'.res :=
  encoding_snapshot_per_call u8Decoder setOnFirstSink ⟨none, 4⟩
    [0x41, 0x42, 0x43, 0x44, 0xC3] true 0 UTF_8 2
    ⟨[⟨[0x41, 0x42, 0x43, 0x44], false, UTF_8⟩, ⟨[0xEF, 0xBF, 0xBD], true, UTF_8⟩],
      Except.ok (2, WINDOWS_1252), none, 4⟩ rfl

/-! Output bounds of the modelled UTF-8 decoder: every decode step writes a
concatenation of complete UTF-8 sequences that fits the output capacity. -/

/-- The byte shapes a single decoded unit can take: one ASCII byte or one
complete 2-, 3- or 4-byte UTF-8 sequence (the replacement character is a
3-byte instance). -/
def unitShape (u : Bytes) : Prop :=
  (∃ b, u = [b] ∧ b ≤ 0x7F) ∨
  (∃ b c, u = [b, c] ∧ 0xC2 ≤ b ∧ b ≤ 0xDF ∧ isCont c = true) ∨
  (∃ b c d, u = [b, c, d] ∧ 0xE0 ≤ b ∧ b ≤ 0xEF ∧ isCont2 b c = true ∧
    isCont d = true) ∨
  (∃ b c d e, u = [b, c, d, e] ∧ 0xF0 ≤ b ∧ b ≤ 0xF4 ∧ isCont2 b c = true ∧
    isCont d = true ∧ isCont e = true)

theorem repl_shape : unitShape repl := by
  refine Or.inr (Or.inr (Or.inl ⟨0xEF, 0xBF, 0xBD, rfl, ?_, ?_, ?_, ?_⟩)) <;> decide

theorem u8unitC_shape : ∀ (s : Bytes) (u : Bytes) (c : Nat),
    u8unitC s = some (u, c) → unitShape u := by
  intro s u c h
  match s with
  | [] => simp [u8unitC] at h
  | [b] =>
    rw [u8unitC] at h
    split_ifs at h <;>
      first
        | exact Option.noConfusion h
        | (simp only [Option.some.injEq, Prod.mk.injEq] at h
           obtain ⟨hu, -⟩ := h
           subst hu
           first
             | exact Or.inl ⟨_, rfl, by omega⟩
             | exact repl_shape)
  | [b, c2] =>
    rw [u8unitC] at h
    split_ifs at h <;>
      first
        | exact Option.noConfusion h
        | (simp only [Option.some.injEq, Prod.mk.injEq] at h
           obtain ⟨hu, -⟩ := h
           subst hu
           first
             | exact Or.inl ⟨_, rfl, by omega⟩
             | exact Or.inr (Or.inl ⟨_, _, rfl, by omega, by omega, by assumption⟩)
             | exact repl_shape)
  | [b, c2, d] =>
    rw [u8unitC] at h
    split_ifs at h <;>
      first
        | exact Option.noConfusion h
        | (simp only [Option.some.injEq, Prod.mk.injEq] at h
           obtain ⟨hu, -⟩ := h
           subst hu
           first
             | exact Or.inl ⟨_, rfl, by omega⟩
             | exact Or.inr (Or.inl ⟨_, _, rfl, by omega, by omega, by assumption⟩)
             | exact Or.inr (Or.inr (Or.inl
                 ⟨_, _, _, rfl, by omega, by omega, by assumption, by assumption⟩))
             | exact repl_shape)
  | b :: c2 :: d :: e :: t4 =>
    rw [u8unitC] at h
    split_ifs at h <;>
      first
        | exact Option.noConfusion h
        | (simp only [Option.some.injEq, Prod.mk.injEq] at h
           obtain ⟨hu, -⟩ := h
           subst hu
           first
             | exact Or.inl ⟨_, rfl, by omega⟩
             | exact Or.inr (Or.inl ⟨_, _, rfl, by omega, by omega, by assumption⟩)
             | exact Or.inr (Or.inr (Or.inl
                 ⟨_, _, _, rfl, by omega, by omega, by assumption, by assumption⟩))
             | exact Or.inr (Or.inr (Or.inr ⟨_, _, _, _, rfl, by omega, by omega,
                 by assumption, by assumption, by assumption⟩))
             | exact repl_shape)

/-- The scan is invariant under shifting the committed count. -/
theorem u8scanGo_shift : ∀ (r : Bytes) (c p need lo hi : Nat),
    u8scanGo r c p need lo hi = c + u8scanGo r 0 p need lo hi := by
  intro r
  induction r with
  | nil => intro c p need lo hi; simp [u8scanGo]
  | cons b t ih =>
    intro c p need lo hi
    rw [u8scanGo, u8scanGo]
    split_ifs <;>
      first
        | (rw [ih (c + p + 1), ih (0 + p + 1)]; omega)
        | (rw [ih (c + 1), ih (0 + 1)]; omega)
        | rw [ih c]
        | omega

theorem utf8ValidUpTo_ascii (b : Nat) (r : Bytes) (hb : b ≤ 0x7F) :
    utf8ValidUpTo (b :: r) = 1 + utf8ValidUpTo r := by
  unfold utf8ValidUpTo
  rw [u8scanGo, if_neg (by omega), if_pos hb, u8scanGo_shift]

theorem utf8ValidUpTo_two (b c : Nat) (r : Bytes) (hb1 : 0xC2 ≤ b) (hb2 : b ≤ 0xDF)
    (hc : isCont c = true) : utf8ValidUpTo (b :: c :: r) = 2 + utf8ValidUpTo r := by
  unfold utf8ValidUpTo
  have hc' : 0x80 ≤ c ∧ c ≤ 0xBF := by simpa [isCont] using hc
  rw [u8scanGo, if_neg (by omega), if_neg (by omega), if_pos ⟨hb1, hb2⟩]
  rw [u8scanGo, if_pos (by omega : (0:Nat) < 1), if_pos hc', if_pos rfl]
  rw [u8scanGo_shift]

theorem utf8ValidUpTo_three (b c d : Nat) (r : Bytes) (hb1 : 0xE0 ≤ b)
    (hb2 : b ≤ 0xEF) (hc : isCont2 b c = true) (hd : isCont d = true) :
    utf8ValidUpTo (b :: c :: d :: r) = 3 + utf8ValidUpTo r := by
  unfold utf8ValidUpTo
  have hc' : cont2lo b ≤ c ∧ c ≤ cont2hi b := by simpa [isCont2] using hc
  have hd' : 0x80 ≤ d ∧ d ≤ 0xBF := by simpa [isCont] using hd
  rw [u8scanGo, if_neg (by omega), if_neg (by omega), if_neg (by omega),
    if_pos ⟨hb1, hb2⟩]
  rw [u8scanGo, if_pos (by omega : (0:Nat) < 2), if_pos hc',
    if_neg (by omega : ¬ (2:Nat) = 1)]
  rw [u8scanGo, if_pos (by omega : (0:Nat) < 2 - 1), if_pos hd',
    if_pos (by omega : (2:Nat) - 1 = 1)]
  rw [u8scanGo_shift]

theorem utf8ValidUpTo_four (b c d e : Nat) (r : Bytes) (hb1 : 0xF0 ≤ b)
    (hb2 : b ≤ 0xF4) (hc : isCont2 b c = true) (hd : isCont d = true)
    (he : isCont e = true) :
    utf8ValidUpTo (b :: c :: d :: e :: r) = 4 + utf8ValidUpTo r := by
  unfold utf8ValidUpTo
  have hc' : cont2lo b ≤ c ∧ c ≤ cont2hi b := by simpa [isCont2] using hc
  have hd' : 0x80 ≤ d ∧ d ≤ 0xBF := by simpa [isCont] using hd
  have he' : 0x80 ≤ e ∧ e ≤ 0xBF := by simpa [isCont] using he
  rw [u8scanGo, if_neg (by omega), if_neg (by omega), if_neg (by omega),
    if_neg (by omega), if_pos ⟨hb1, hb2⟩]
  rw [u8scanGo, if_pos (by omega : (0:Nat) < 3), if_pos hc',
    if_neg (by omega : ¬ (3:Nat) = 1)]
  rw [u8scanGo, if_pos (by omega : (0:Nat) < 3 - 1), if_pos hd',
    if_neg (by omega : ¬ (3:Nat) - 1 = 1)]
  rw [u8scanGo, if_pos (by omega : (0:Nat) < 3 - 1 - 1), if_pos he',
    if_pos (by omega : (3:Nat) - 1 - 1 = 1)]
  rw [u8scanGo_shift]

/-- Scanning a complete UTF-8 sequence followed by anything accepts the
sequence and continues. -/
theorem unitShape_append (u r : Bytes) (h : unitShape u) :
    utf8ValidUpTo (u ++ r) = u.length + utf8ValidUpTo r := by
  rcases h with ⟨b, hu, hb⟩ | ⟨b, c, hu, hb1, hb2, hc⟩ |
    ⟨b, c, d, hu, hb1, hb2, hc, hd⟩ | ⟨b, c, d, e, hu, hb1, hb2, hc, hd, he⟩
  · subst hu
    rw [List.cons_append, List.nil_append, utf8ValidUpTo_ascii b r hb]
    rfl
  · subst hu
    simp only [List.cons_append, List.nil_append]
    rw [utf8ValidUpTo_two b c r hb1 hb2 hc]
    rfl
  · subst hu
    simp only [List.cons_append, List.nil_append]
    rw [utf8ValidUpTo_three b c d r hb1 hb2 hc hd]
    rfl
  · subst hu
    simp only [List.cons_append, List.nil_append]
    rw [utf8ValidUpTo_four b c d e r hb1 hb2 hc hd he]
    rfl

/-- Byte strings that are concatenations of complete UTF-8 sequences. -/
inductive UnitList : Bytes → Prop
  | nil : UnitList []
  | cons (u r : Bytes) : unitShape u → UnitList r → UnitList (u ++ r)

theorem UnitList.valid : ∀ (s : Bytes), UnitList s → validUtf8 s := by
  intro s h
  induction h with
  | nil => rfl
  | cons u r hu hr ih =>
    have : utf8ValidUpTo (u ++ r) = u.length + utf8ValidUpTo r := unitShape_append u r hu
    unfold validUtf8 at ih ⊢
    rw [this, ih]
    simp

theorem UnitList.append_unit : ∀ (s u : Bytes), UnitList s → unitShape u →
    UnitList (s ++ u) := by
  intro s u hs hu
  induction hs with
  | nil =>
    simpa using UnitList.cons u [] hu UnitList.nil
  | cons u' r hu' hr ih =>
    rw [List.append_assoc]
    exact UnitList.cons u' (r ++ u) hu' ih

/-- The decode-step worker only ever appends whole units that fit: its output
is a concatenation of complete UTF-8 sequences of total length at most the
capacity. -/
theorem u8decodeGo_out (cap : Nat) (last : Bool) :
    ∀ (fuel : Nat) (p i : Bytes) (read : Nat) (out : Bytes),
      UnitList out → out.length ≤ cap →
      UnitList (u8decodeGo cap last fuel p i read out).out ∧
        (u8decodeGo cap last fuel p i read out).out.length ≤ cap := by
  intro fuel
  induction fuel with
  | zero =>
    intro p i read out hout hlen
    exact ⟨hout, hlen⟩
  | succ n ih =>
    intro p i read out hout hlen
    rw [u8decodeGo]
    split
    · split
      · split
        · exact ⟨hout, hlen⟩
        · split
          · rename_i hfits
            refine ⟨UnitList.append_unit out repl hout repl_shape, ?_⟩
            simpa [repl] using hfits
          · exact ⟨hout, hlen⟩
      · exact ⟨hout, hlen⟩
    · rename_i u c hunit
      split
      · rename_i hfits
        refine ih [] (i.drop (c - p.length)) (read + (c - p.length)) (out ++ u)
          (UnitList.append_unit out u hout (u8unitC_shape (p ++ i) u c hunit)) ?_
        simp only [List.length_append]
        omega
      · exact ⟨hout, hlen⟩

/-- Every decode step of the modelled UTF-8 decoder writes valid UTF-8 of at
most the output capacity. -/
theorem u8decode_out (p i : Bytes) (cap : Nat) (last : Bool) :
    validUtf8 (u8Decoder.decode p i cap last).out ∧
      (u8Decoder.decode p i cap last).out.length ≤ cap := by
  have h := u8decodeGo_out cap last (p.length + i.length + 1) p i 0 [] UnitList.nil
    (by simp)
  exact ⟨UnitList.valid _ h.1, h.2⟩

/-- Every sink invocation of the slow-path decode loop running the modelled
UTF-8 decoder passes valid UTF-8 of length at most the scratch-buffer
length. -/
theorem feedLoop_u8_text_bound {β : Type} (sink : Sink β) (enc : Encoding)
    (bufLen : Nat) (last : Bool) :
    ∀ (fuel : Nat) (dec : Bytes) (raw : Bytes) (b : β) evs r p,
      feedLoop u8Decoder sink enc bufLen last dec raw b fuel = some (evs, r, p) →
      ∀ ev ∈ evs, validUtf8 ev.text ∧ ev.text.length ≤ bufLen := by
  intro fuel
  induction fuel with
  | zero =>
    intro dec raw b evs r p h
    simp [feedLoop] at h
  | succ n ih =>
    intro dec raw b evs r p h
    simp only [feedLoop] at h
    split at h
    · split at h
      · simp only [Option.some.injEq, Prod.mk.injEq] at h
        obtain ⟨he, -, -⟩ := h
        subst he
        intro ev hev
        simp at hev
        subst hev
        exact u8decode_out dec raw bufLen last
      · split at h
        · simp only [Option.some.injEq, Prod.mk.injEq] at h
          obtain ⟨he, -, -⟩ := h
          subst he
          intro ev hev
          simp at hev
          subst hev
          exact u8decode_out dec raw bufLen last
        · split at h
          · exact absurd h (by simp)
          · rename_i evs' r' p' heq
            simp only [Option.some.injEq, Prod.mk.injEq] at h
            obtain ⟨he, -, -⟩ := h
            subst he
            intro ev hev
            rcases List.mem_cons.mp hev with hev | hev
            · subst hev
              exact u8decode_out dec raw bufLen last
            · exact ih _ _ _ _ _ _ heq ev hev
    · split at h
      · simp only [Option.some.injEq, Prod.mk.injEq] at h
        obtain ⟨he, -, -⟩ := h
        subst he
        intro ev hev
        simp at hev
      · exact fun ev hev => ih _ _ _ _ _ _ h ev hev

/-- C10: every sink invocation made by the slow path (the decode loop)
passes valid UTF-8 of length at most the scratch-buffer length, and no
`feed_text` or `flush_pending` call ever changes the scratch-buffer length,
so with the 1024-byte buffer of `TextDecoder::new` the bound is 1024 for
every call across the decoder's lifetime. -/
theorem slow_path_chunk_bound {σ β : Type} (D : DecoderIface σ) (sink : Sink β) :
    (∀ (enc : Encoding) (bufLen : Nat) (last : Bool) (fuel : Nat) (dec : Bytes)
      (raw : Bytes) (b : β) evs r p,
      feedLoop u8Decoder sink enc bufLen last dec raw b fuel = some (evs, r, p) →
      ∀ ev ∈ evs, validUtf8 ev.text ∧ ev.text.length ≤ bufLen) ∧
    (∀ (st : TextDecoder σ) (raw : Bytes) (last : Bool) (enc : Encoding) (b : β)
      (fuel : Nat) (out : FeedOut σ β),
      feed_text D sink st raw last enc b fuel = some out →
      out.bufLen = st.text_buffer_len) ∧
    (∀ (st : TextDecoder σ) (enc : Encoding) (b : β) (fuel : Nat) (out : FeedOut σ β),
      flush_pending D sink st enc b fuel = some out →
      out.bufLen = st.text_buffer_len) := by
  refine ⟨?_, ?_, ?_⟩
  · intro enc bufLen last fuel dec raw b evs r p h
    exact feedLoop_u8_text_bound sink enc bufLen last fuel dec raw b evs r p h
  · intro st raw last enc b fuel out h
    exact feed_text_bufLen D sink st raw last enc b fuel out h
  · intro st enc b fuel out h
    rw [flush_pending] at h
    split at h
    · exact feed_text_bufLen D sink st [] true enc b fuel out h
    · simp only [Option.some.injEq] at h
      subst h
      rfl

/-- C10 witness: a malformed lone byte decoded through the slow path with the
1024-byte buffer of a fresh decoder emits the replacement character, which is
valid UTF-8 of length 3 ≤ 1024. -/
theorem slow_path_chunk_bound_witness :
    validUtf8 ([0xEF, 0xBF, 0xBD] : Bytes) ∧ ([0xEF, 0xBF, 0xBD] : Bytes).length ≤ 1024 :=
  (slow_path_chunk_bound u8Decoder collectSink).1 UTF_8 1024 true 1 [] [0xFF] []
    [⟨[0xEF, 0xBF, 0xBD], true, UTF_8⟩] (Except.ok [[0xEF, 0xBF, 0xBD]]) none rfl
    ⟨[0xEF, 0xBF, 0xBD], true, UTF_8⟩ (by simp)

/-! Evaluation of the modelled decoder on an incomplete front and on one
complete sequence, for the split-character runs. -/

theorem u8decodeGo_none (cap : Nat) (fuel : Nat) (p i : Bytes) (read : Nat)
    (out : Bytes) (h : u8unitC (p ++ i) = none) :
    u8decodeGo cap false (fuel + 1) p i read out =
      ⟨p ++ i, CoderResult.inputEmpty, read + i.length, out⟩ := by
  rw [u8decodeGo]
  simp only [h, Bool.false_eq_true, if_false]

/-- A decode step on input that is an incomplete valid front, not last:
everything is buffered, nothing is written. -/
theorem u8decode_pending_none (p i : Bytes) (cap : Nat)
    (h : u8unitC (p ++ i) = none) :
    u8Decoder.decode p i cap false = ⟨p ++ i, CoderResult.inputEmpty, i.length, []⟩ := by
  show u8decodeGo cap false (p.length + i.length + 1) p i 0 [] = _
  rw [u8decodeGo_none cap (p.length + i.length) p i 0 [] h]
  simp

theorem u8decodeGo_whole (cap : Nat) (p i : Bytes) (read : Nat) (out : Bytes)
    (fuel : Nat) (hfuel : 2 ≤ fuel)
    (h : u8unitC (p ++ i) = some (p ++ i, (p ++ i).length))
    (hcap : (p ++ i).length + out.length ≤ cap) :
    u8decodeGo cap true fuel p i read out =
      ⟨[], CoderResult.inputEmpty, read + i.length, out ++ (p ++ i)⟩ := by
  obtain ⟨m, rfl⟩ : ∃ m, fuel = m + 1 + 1 := ⟨fuel - 2, by omega⟩
  rw [u8decodeGo]
  simp only [h, List.length_append, Nat.add_sub_cancel_left, List.drop_length]
  rw [List.length_append] at hcap
  rw [if_pos hcap]
  rw [u8decodeGo]
  simp [show u8unitC ([] : Bytes) = none from rfl]

/-- A last decode step whose buffered front plus input is exactly one complete
sequence that fits the buffer: it is written whole and the state clears. -/
theorem u8decode_whole_last (p i : Bytes) (cap : Nat)
    (h : u8unitC (p ++ i) = some (p ++ i, (p ++ i).length))
    (hne : p ++ i ≠ []) (hcap : (p ++ i).length ≤ cap) :
    u8Decoder.decode p i cap true = ⟨[], CoderResult.inputEmpty, i.length, p ++ i⟩ := by
  show u8decodeGo cap true (p.length + i.length + 1) p i 0 [] = _
  have hlen : 1 ≤ (p ++ i).length := by
    cases hpp : p ++ i with
    | nil => exact absurd hpp hne
    | cons x xs => simp [hpp]
  rw [List.length_append] at hlen
  rw [u8decodeGo_whole cap p i 0 [] (p.length + i.length + 1) (by omega) h
    (by simpa using hcap)]
  simp

/-! Claim theorems (continued). -/

/-- C9: `SharedEncoding::new(E)` followed by `get()` returns `E`, and after
`set(F)` on a handle holding any previous value, `get()` returns `F`.  Cloned
handles denote the same slot, so in the sequential model they are the same
value and the statement covers reads through any clone. -/
theorem shared_encoding_round_trip (E F : AsciiCompatibleEncoding) (S : SharedEncoding) :
    SharedEncoding.get (SharedEncoding.new E) = E.val ∧
    SharedEncoding.get (SharedEncoding.set S F) = F.val :=
  ⟨rfl, rfl⟩

/-- A fully valid UTF-8 chunk with no pending decoder takes the zero-copy
fast path: one sink invocation with the whole input and `is_last = true`. -/
theorem feed_text_valid_full {σ β : Type} (D : DecoderIface σ)
    (sink : Sink β) (st : TextDecoder σ) (raw : Bytes) (b : β) (fuel : Nat)
    (hval : validUtf8 raw)
    (hp : st.pending_text_streaming_decoder = none) :
    feed_text D sink st raw true UTF_8 b fuel =
      some ⟨[⟨raw, true, UTF_8⟩], sink b raw true UTF_8, none, st.text_buffer_len⟩ := by
  have hval' : utf8ValidUpTo raw = raw.length := hval
  have hsplit : split_utf8_start st raw UTF_8 = some (raw, []) := by
    simp [split_utf8_start, hp, hval']
  rw [feed_text, hsplit]
  cases hs : sink b raw true UTF_8 <;> simp [hs, hp]

/-- C2: feeding one byte slice that is entirely valid UTF-8 in a single call
with `is_last_chunk_of_segment = true`, the active encoding UTF-8 and no
pending decode state invokes the sink exactly once, with exactly the input
text and `is_last = true`, leaves no pending state, and returns the sink's
result. -/
theorem feed_text_single_chunk_fast_path {σ β : Type} (D : DecoderIface σ)
    (sink : Sink β) (st : TextDecoder σ) (raw : Bytes) (b : β) (fuel : Nat)
    (hval : validUtf8 raw)
    (hp : st.pending_text_streaming_decoder = none) :
    feed_text D sink st raw true UTF_8 b fuel =
      some ⟨[⟨raw, true, UTF_8⟩], sink b raw true UTF_8, none, st.text_buffer_len⟩ :=
  feed_text_valid_full D sink st raw b fuel hval hp

/-- C2 witness: a concrete two-byte ASCII chunk delivered through the fast
path in one invocation. -/
theorem feed_text_single_chunk_fast_path_witness :
    feed_text u8Decoder collectSink (TextDecoder.new Bytes) [104, 105] true UTF_8 [] 1 =
      some ⟨[⟨[104, 105], true, UTF_8⟩], collectSink [] [104, 105] true UTF_8, none, 1024⟩ :=
  feed_text_single_chunk_fast_path u8Decoder collectSink (TextDecoder.new Bytes)
    [104, 105] [] 1 (by decide) rfl

/-- The fast path declines when the matched front neither covers the input
nor reaches the scratch-buffer length. -/
theorem split_utf8_start_declined {σ : Type} (st : TextDecoder σ) (raw : Bytes)
    (enc : Encoding)
    (hp : st.pending_text_streaming_decoder = none)
    (hv : validUpTo enc raw ≠ raw.length)
    (hlt : validUpTo enc raw < st.text_buffer_len) :
    split_utf8_start st raw enc = none := by
  by_cases henc : enc = UTF_8
  · subst henc
    simp only [validUpTo, if_true, eq_self_iff_true] at hv hlt
    simp [split_utf8_start, hp, hv, hlt]
  · simp only [validUpTo, if_neg henc] at hv hlt
    simp [split_utf8_start, hp, henc, hv, hlt]

/-- C5: with no pending decode state, when the matched front (valid-UTF-8
front for UTF-8, ASCII front otherwise) does not cover the whole input and is
strictly shorter than the scratch buffer, the fast path is declined entirely:
`split_utf8_start` returns `none` and the call is the slow path on the full
input. -/
theorem fast_path_declined_below_capacity {σ β : Type} (D : DecoderIface σ)
    (sink : Sink β) (st : TextDecoder σ) (raw : Bytes) (last : Bool)
    (enc : Encoding) (b : β) (fuel : Nat)
    (hp : st.pending_text_streaming_decoder = none)
    (hv : validUpTo enc raw ≠ raw.length)
    (hlt : validUpTo enc raw < st.text_buffer_len) :
    split_utf8_start st raw enc = none ∧
    feed_text D sink st raw last enc b fuel =
      feed_text_slow D sink st raw last enc b fuel := by
  have hsplit : split_utf8_start st raw enc = none :=
    split_utf8_start_declined st raw enc hp hv hlt
  exact ⟨hsplit, by rw [feed_text, hsplit]⟩

/-- C5 witness: a lone UTF-8 lead byte has matched front of length 0, which
neither covers the input nor reaches the 1024-byte buffer, so the call goes to
the slow path on the full input. -/
theorem fast_path_declined_below_capacity_witness :
    split_utf8_start (TextDecoder.new Bytes) [0xC3] UTF_8 = none ∧
    feed_text u8Decoder collectSink (TextDecoder.new Bytes) [0xC3] true UTF_8 [] 1 =
      feed_text_slow u8Decoder collectSink (TextDecoder.new Bytes) [0xC3] true UTF_8 [] 1 :=
  fast_path_declined_below_capacity u8Decoder collectSink (TextDecoder.new Bytes)
    [0xC3] true UTF_8 [] 1 rfl (by decide) (by decide)

/-- The two-call split run and the one-call run of a byte string whose front
is an incomplete sequence completed by the second part: the first call
buffers everything and emits nothing, the second call emits the whole text
with `is_last = true`, and the single call emits the same text through the
fast path. -/
theorem split_run (part1 part2 : Bytes)
    (h1 : utf8ValidUpTo part1 = 0)
    (hne1 : part1 ≠ [])
    (hu1 : u8unitC part1 = none)
    (hwhole : u8unitC (part1 ++ part2) = some (part1 ++ part2, (part1 ++ part2).length))
    (hlen : (part1 ++ part2).length ≤ 1024)
    (hvalid : validUtf8 (part1 ++ part2))
    (f1 f2 f3 : Nat) :
    feed_text u8Decoder collectSink (TextDecoder.new Bytes) part1 false UTF_8 []
        (f1 + 1) =
      some ⟨[], Except.ok [], some part1, 1024⟩ ∧
    feed_text u8Decoder collectSink ⟨some part1, 1024⟩ part2 true UTF_8 [] (f2 + 1) =
      some ⟨[⟨part1 ++ part2, true, UTF_8⟩], Except.ok [part1 ++ part2], none, 1024⟩ ∧
    feed_text u8Decoder collectSink (TextDecoder.new Bytes) (part1 ++ part2) true
        UTF_8 [] f3 =
      some ⟨[⟨part1 ++ part2, true, UTF_8⟩], Except.ok [part1 ++ part2], none, 1024⟩ := by
  have hlen1 : 0 < part1.length := List.length_pos.mpr hne1
  have hb1 : (TextDecoder.new Bytes).text_buffer_len = 1024 := rfl
  have hg1 : (TextDecoder.new Bytes).pending_text_streaming_decoder.getD
      (u8Decoder.newDecoder UTF_8) = [] := rfl
  refine ⟨?_, ?_, ?_⟩
  · have hsplit : split_utf8_start (TextDecoder.new Bytes) part1 UTF_8 = none := by
      refine split_utf8_start_declined (TextDecoder.new Bytes) part1 UTF_8 rfl ?_ ?_
      · simp only [validUpTo, eq_self_iff_true, if_true, h1]
        omega
      · simp only [validUpTo, eq_self_iff_true, if_true, h1, hb1]
        omega
    have hdec : u8Decoder.decode [] part1 1024 false =
        ⟨[] ++ part1, CoderResult.inputEmpty, part1.length, []⟩ :=
      u8decode_pending_none [] part1 1024 (by simpa using hu1)
    have hloop : feedLoop u8Decoder collectSink UTF_8 1024 false [] part1 []
        (f1 + 1) = some ([], Except.ok [], some part1) := by
      rw [feedLoop, hdec]
      simp
    simp only [feed_text, hsplit, feed_text_slow, hb1, hg1, hloop]
  · have hsplit : split_utf8_start (⟨some part1, 1024⟩ : TextDecoder Bytes) part2
        UTF_8 = none := by
      rw [split_utf8_start]
      simp
    have hb2 : (⟨some part1, 1024⟩ : TextDecoder Bytes).text_buffer_len = 1024 := rfl
    have hg2 : (⟨some part1, 1024⟩ : TextDecoder Bytes).pending_text_streaming_decoder.getD
        (u8Decoder.newDecoder UTF_8) = part1 := rfl
    have hdec : u8Decoder.decode part1 part2 1024 true =
        ⟨[], CoderResult.inputEmpty, part2.length, part1 ++ part2⟩ :=
      u8decode_whole_last part1 part2 1024 hwhole (by simp [hne1]) hlen
    have hloop : feedLoop u8Decoder collectSink UTF_8 1024 true part1 part2 []
        (f2 + 1) = some ([⟨part1 ++ part2, true, UTF_8⟩],
          Except.ok [part1 ++ part2], none) := by
      rw [feedLoop, hdec]
      simp [collectSink]
    simp only [feed_text, hsplit, feed_text_slow, hb2, hg2, hloop]
  · rw [feed_text_valid_full u8Decoder collectSink (TextDecoder.new Bytes)
      (part1 ++ part2) [] f3 hvalid rfl]
    simp [collectSink, TextDecoder.new]

/-- The encoded bytes of one multi-byte UTF-8 character: a complete 2-, 3- or
4-byte sequence. -/
def multiByteSeq (c : Bytes) : Prop :=
  (∃ b1 b2, c = [b1, b2] ∧ 0xC2 ≤ b1 ∧ b1 ≤ 0xDF ∧ isCont b2 = true) ∨
  (∃ b1 b2 b3, c = [b1, b2, b3] ∧ 0xE0 ≤ b1 ∧ b1 ≤ 0xEF ∧ isCont2 b1 b2 = true ∧
    isCont b3 = true) ∨
  (∃ b1 b2 b3 b4, c = [b1, b2, b3, b4] ∧ 0xF0 ≤ b1 ∧ b1 ≤ 0xF4 ∧
    isCont2 b1 b2 = true ∧ isCont b3 = true ∧ isCont b4 = true)

theorem mb2_facts (b1 b2 : Nat) (h1 : 0xC2 ≤ b1) (h2 : b1 ≤ 0xDF)
    (hc : isCont b2 = true) :
    utf8ValidUpTo [b1] = 0 ∧ u8unitC [b1] = none ∧
    u8unitC [b1, b2] = some ([b1, b2], 2) ∧ validUtf8 [b1, b2] := by
  have n7F : ¬ b1 ≤ 0x7F := by omega
  have hC : 0xC2 ≤ b1 ∧ b1 ≤ 0xDF := ⟨h1, h2⟩
  refine ⟨?_, ?_, ?_, ?_⟩
  · simp [utf8ValidUpTo, u8scanGo, n7F, hC]
  · simp [u8unitC, n7F, hC]
  · simp [u8unitC, n7F, hC, hc]
  · show utf8ValidUpTo [b1, b2] = _
    rw [utf8ValidUpTo_two b1 b2 [] h1 h2 hc]
    rfl

theorem mb3_facts (b1 b2 b3 : Nat) (h1 : 0xE0 ≤ b1) (h2 : b1 ≤ 0xEF)
    (hc2 : isCont2 b1 b2 = true) (hc3 : isCont b3 = true) :
    utf8ValidUpTo [b1] = 0 ∧ utf8ValidUpTo [b1, b2] = 0 ∧
    u8unitC [b1] = none ∧ u8unitC [b1, b2] = none ∧
    u8unitC [b1, b2, b3] = some ([b1, b2, b3], 3) ∧ validUtf8 [b1, b2, b3] := by
  have n7F : ¬ b1 ≤ 0x7F := by omega
  have nC : ¬ (0xC2 ≤ b1 ∧ b1 ≤ 0xDF) := by omega
  have hE : 0xE0 ≤ b1 ∧ b1 ≤ 0xEF := ⟨h1, h2⟩
  have hc2' : cont2lo b1 ≤ b2 ∧ b2 ≤ cont2hi b1 := by simpa [isCont2] using hc2
  refine ⟨?_, ?_, ?_, ?_, ?_, ?_⟩
  · simp [utf8ValidUpTo, u8scanGo, n7F, nC, hE]
  · simp [utf8ValidUpTo, u8scanGo, n7F, nC, hE, hc2']
  · simp [u8unitC, n7F, nC, hE]
  · simp [u8unitC, n7F, nC, hE, hc2]
  · simp [u8unitC, n7F, nC, hE, hc2, hc3]
  · show utf8ValidUpTo [b1, b2, b3] = _
    rw [utf8ValidUpTo_three b1 b2 b3 [] h1 h2 hc2 hc3]
    rfl

theorem mb4_facts (b1 b2 b3 b4 : Nat) (h1 : 0xF0 ≤ b1) (h2 : b1 ≤ 0xF4)
    (hc2 : isCont2 b1 b2 = true) (hc3 : isCont b3 = true) (hc4 : isCont b4 = true) :
    utf8ValidUpTo [b1] = 0 ∧ utf8ValidUpTo [b1, b2] = 0 ∧
    utf8ValidUpTo [b1, b2, b3] = 0 ∧
    u8unitC [b1] = none ∧ u8unitC [b1, b2] = none ∧ u8unitC [b1, b2, b3] = none ∧
    u8unitC [b1, b2, b3, b4] = some ([b1, b2, b3, b4], 4) ∧
    validUtf8 [b1, b2, b3, b4] := by
  have n7F : ¬ b1 ≤ 0x7F := by omega
  have nC : ¬ (0xC2 ≤ b1 ∧ b1 ≤ 0xDF) := by omega
  have nE : ¬ (0xE0 ≤ b1 ∧ b1 ≤ 0xEF) := by omega
  have hF : 0xF0 ≤ b1 ∧ b1 ≤ 0xF4 := ⟨h1, h2⟩
  have hc2' : cont2lo b1 ≤ b2 ∧ b2 ≤ cont2hi b1 := by simpa [isCont2] using hc2
  have hc3' : 0x80 ≤ b3 ∧ b3 ≤ 0xBF := by simpa [isCont] using hc3
  refine ⟨?_, ?_, ?_, ?_, ?_, ?_, ?_, ?_⟩
  · simp [utf8ValidUpTo, u8scanGo, n7F, nC, nE, hF]
  · simp [utf8ValidUpTo, u8scanGo, n7F, nC, nE, hF, hc2']
  · simp [utf8ValidUpTo, u8scanGo, n7F, nC, nE, hF, hc2', hc3']
  · simp [u8unitC, n7F, nC, nE, hF]
  · simp [u8unitC, n7F, nC, nE, hF, hc2]
  · simp [u8unitC, n7F, nC, nE, hF, hc2, hc3]
  · simp [u8unitC, n7F, nC, nE, hF, hc2, hc3, hc4]
  · show utf8ValidUpTo [b1, b2, b3, b4] = _
    rw [utf8ValidUpTo_four b1 b2 b3 b4 [] h1 h2 hc2 hc3 hc4]
    rfl

/-- C3: splitting the encoded bytes of one multi-byte character across two
`feed_text` calls (first non-last, second last) delivers, as the
concatenation of all sink texts, the identical text to a single call with the
concatenated bytes: the first call buffers its part and emits nothing, the
second call emits exactly the whole character with `is_last = true`, and the
single call emits the same. -/
theorem split_multibyte_reassembly (c : Bytes) (k : Nat) (h : multiByteSeq c)
    (hk1 : 1 ≤ k) (hk2 : k < c.length) (f1 f2 f3 : Nat) :
    feed_text u8Decoder collectSink (TextDecoder.new Bytes) (c.take k) false UTF_8
        [] (f1 + 1) =
      some ⟨[], Except.ok [], some (c.take k), 1024⟩ ∧
    feed_text u8Decoder collectSink ⟨some (c.take k), 1024⟩ (c.drop k) true UTF_8
        [] (f2 + 1) =
      some ⟨[⟨c, true, UTF_8⟩], Except.ok [c], none, 1024⟩ ∧
    feed_text u8Decoder collectSink (TextDecoder.new Bytes) c true UTF_8 [] f3 =
      some ⟨[⟨c, true, UTF_8⟩], Except.ok [c], none, 1024⟩ ∧
    (([] : List Bytes) ++ [c]).flatten = ([c] : List Bytes).flatten := by
  rcases h with ⟨b1, b2, hc, h1, h2, hcont⟩ | ⟨b1, b2, b3, hc, h1, h2, hc2, hc3⟩ |
    ⟨b1, b2, b3, b4, hc, h1, h2, hc2, hc3, hc4⟩
  · subst hc
    simp only [List.length_cons, List.length_nil] at hk2
    interval_cases k
    obtain ⟨ht1, hu1, hw, hv⟩ := mb2_facts b1 b2 h1 h2 hcont
    obtain ⟨s1, s2, s3⟩ := split_run [b1] [b2] ht1 (by simp) hu1
      (by simpa using hw) (by simp) (by simpa using hv) f1 f2 f3
    exact ⟨by simpa using s1, by simpa using s2, by simpa using s3, by simp⟩
  · subst hc
    simp only [List.length_cons, List.length_nil] at hk2
    obtain ⟨ht1, ht2, hu1, hu2, hw, hv⟩ := mb3_facts b1 b2 b3 h1 h2 hc2 hc3
    interval_cases k
    · obtain ⟨s1, s2, s3⟩ := split_run [b1] [b2, b3] ht1 (by simp) hu1
        (by simpa using hw) (by simp) (by simpa using hv) f1 f2 f3
      exact ⟨by simpa using s1, by simpa using s2, by simpa using s3, by simp⟩
    · obtain ⟨s1, s2, s3⟩ := split_run [b1, b2] [b3] ht2 (by simp) hu2
        (by simpa using hw) (by simp) (by simpa using hv) f1 f2 f3
      exact ⟨by simpa using s1, by simpa using s2, by simpa using s3, by simp⟩
  · subst hc
    simp only [List.length_cons, List.length_nil] at hk2
    obtain ⟨ht1, ht2, ht3, hu1, hu2, hu3, hw, hv⟩ := mb4_facts b1 b2 b3 b4 h1 h2 hc2 hc3 hc4
    interval_cases k
    · obtain ⟨s1, s2, s3⟩ := split_run [b1] [b2, b3, b4] ht1 (by simp) hu1
        (by simpa using hw) (by simp) (by simpa using hv) f1 f2 f3
      exact ⟨by simpa using s1, by simpa using s2, by simpa using s3, by simp⟩
    · obtain ⟨s1, s2, s3⟩ := split_run [b1, b2] [b3, b4] ht2 (by simp) hu2
        (by simpa using hw) (by simp) (by simpa using hv) f1 f2 f3
      exact ⟨by simpa using s1, by simpa using s2, by simpa using s3, by simp⟩
    · obtain ⟨s1, s2, s3⟩ := split_run [b1, b2, b3] [b4] ht3 (by simp) hu3
        (by simpa using hw) (by simp) (by simpa using hv) f1 f2 f3
      exact ⟨by simpa using s1, by simpa using s2, by simpa using s3, by simp⟩

/-- C3 witness: the euro sign E2 82 AC split after its first byte. -/
theorem split_multibyte_reassembly_witness :
    feed_text u8Decoder collectSink (TextDecoder.new Bytes)
        (([0xE2, 0x82, 0xAC] : Bytes).take 1) false UTF_8 [] 1 =
      some ⟨[], Except.ok [], some (([0xE2, 0x82, 0xAC] : Bytes).take 1), 1024⟩ ∧
    feed_text u8Decoder collectSink ⟨some (([0xE2, 0x82, 0xAC] : Bytes).take 1), 1024⟩
        (([0xE2, 0x82, 0xAC] : Bytes).drop 1) true UTF_8 [] 1 =
      some ⟨[⟨[0xE2, 0x82, 0xAC], true, UTF_8⟩], Except.ok [[0xE2, 0x82, 0xAC]],
        none, 1024⟩ ∧
    feed_text u8Decoder collectSink (TextDecoder.new Bytes) [0xE2, 0x82, 0xAC] true
        UTF_8 [] 1 =
      some ⟨[⟨[0xE2, 0x82, 0xAC], true, UTF_8⟩], Except.ok [[0xE2, 0x82, 0xAC]],
        none, 1024⟩ ∧
    (([] : List Bytes) ++ [[0xE2, 0x82, 0xAC]]).flatten =
      ([[0xE2, 0x82, 0xAC]] : List Bytes).flatten :=
  split_multibyte_reassembly [0xE2, 0x82, 0xAC] 1
    (Or.inr (Or.inl ⟨0xE2, 0x82, 0xAC, rfl, by decide, by decide, by decide, by decide⟩))
    (by decide) (by decide) 0 0 1

end LolHtml
